import Mathlib

/-!
Verification development for the hybrid-search-service repository.

The development shallowly embeds the two Python services:
  * the retrieval service (`src/retrieval/src/rag_retrieval/`): the RRF
    fusion of lexical and semantic candidate lists (`api.py`), the
    sentence-based chunker (`chunker.py`), the ingestion pipeline and its
    database effects (`ingest.py`, `db.py`), and the settings surface
    (`config.py`);
  * the reranker service (`src/reranker/src/reranker_service/api.py`).

Python floats are modelled as rationals (`ℚ`), machine integers as `Nat`/`Int`
(none of the arithmetic in the modelled code can overflow a Python int, which
is unbounded anyway), database tables as lists of row records with explicit
serial counters, and raising endpoints as `Except`-valued functions.
-/

namespace HybridSearch

/-! ## Data model of the retrieval query API (`api.py`)

`ChunkResult` mirrors the pydantic model of the same name (api.py lines
26-32).  The float `score` is modelled as a rational. -/

structure ChunkResult where
  chunk_id : Int
  document_id : Int
  content : String
  score : ℚ
  source_url : Option String
  source_title : Option String
deriving DecidableEq, Repr

/-- Model of `enumerate`: `ranked n l` pairs each element of `l` with its position counting from
`n`; it models Python's `enumerate(l, start=n)`. -/
def ranked (n : Nat) : List α → List (Nat × α)
  | [] => []
  | a :: l => (n, a) :: ranked (n + 1) l

/-- One entry of the `fused` dict built by `reciprocal_rank_fusion`
(api.py lines 169-193): the stored result object and the accumulated RRF
score.  `pos` records the dict-insertion position (Python dicts preserve
insertion order); it is the index of the entry in the fused list. -/
structure FusedEntry where
  pos : Nat
  item : ChunkResult
  score : ℚ
deriving DecidableEq, Repr

/-- One loop iteration of `reciprocal_rank_fusion` (api.py lines 174-193):
if the chunk id is already a key of the fused dict, accumulate the RRF
score, otherwise append a fresh entry holding the result object. -/
def fuseOne (fused : List FusedEntry) (result : ChunkResult) (rrf_score : ℚ) :
    List FusedEntry :=
  if result.chunk_id ∈ fused.map (fun e => e.item.chunk_id) then
    fused.map (fun e =>
      if e.item.chunk_id = result.chunk_id then { e with score := e.score + rrf_score } else e)
  else
    fused ++ [⟨fused.length, result, rrf_score⟩]

/-- Folding `fuseOne` over a list of (rrf_score, result) pairs. -/
def fuseSteps (fused : List FusedEntry) (l : List (ℚ × ChunkResult)) : List FusedEntry :=
  l.foldl (fun f p => fuseOne f p.2 p.1) fused

/-- The per-element RRF contributions of one ranked list:
`rrf_score = 1.0 / (rrf_k + rank)` with 1-based ranks
(api.py lines 174-175 and 186-187). -/
def rrfScored (rrf_k : Nat) (l : List ChunkResult) : List (ℚ × ChunkResult) :=
  (ranked 1 l).map (fun p => ((1 : ℚ) / ((rrf_k : ℚ) + (p.1 : ℚ)), p.2))

/-- The fused dict after processing the lexical list and then the semantic
list (api.py lines 171-193), as a list in insertion order. -/
def fusedEntries (lexical semantic : List ChunkResult) (rrf_k : Nat) : List FusedEntry :=
  fuseSteps (fuseSteps [] (rrfScored rrf_k lexical)) (rrfScored rrf_k semantic)

/-- The ordering used to sort fused entries: score descending, and for equal
scores dict-insertion position ascending.  Python's `sorted(...,
key=lambda x: x["score"], reverse=True)` (api.py line 203) is a stable sort,
i.e. entries with equal scores keep their relative (insertion) order, and
since the insertion positions are pairwise distinct that stable sort computes
exactly the sort by (score descending, position ascending).  The
`heapq.nlargest` branch for large result sets (api.py lines 198-200) is
documented to be equivalent to `sorted(..., reverse=True)[:k]`, stability
included, so both branches are modelled by this one ordering. -/
def entryLE (a b : FusedEntry) : Prop :=
  b.score < a.score ∨ (a.score = b.score ∧ a.pos ≤ b.pos)

instance : DecidableRel entryLE := fun a b => by
  unfold entryLE; exact inferInstance

instance : IsTotal FusedEntry entryLE where
  total a b := by
    unfold entryLE
    rcases lt_trichotomy a.score b.score with h | h | h
    · exact Or.inr (Or.inl h)
    · rcases Nat.le_total a.pos b.pos with hp | hp
      · exact Or.inl (Or.inr ⟨h, hp⟩)
      · exact Or.inr (Or.inr ⟨h.symm, hp⟩)
    · exact Or.inl (Or.inl h)

instance : IsTrans FusedEntry entryLE where
  trans a b c hab hbc := by
    unfold entryLE at *
    rcases hab with h1 | ⟨h1, p1⟩
    · rcases hbc with h2 | ⟨h2, p2⟩
      · exact Or.inl (h2.trans h1)
      · exact Or.inl (h2 ▸ h1)
    · rcases hbc with h2 | ⟨h2, p2⟩
      · exact Or.inl (h1 ▸ h2)
      · exact Or.inr ⟨h1.trans h2, p1.trans p2⟩

/-- The fused entries sorted by RRF score descending with ties kept in
dict-insertion order (api.py lines 195-204, before the `[:k]` truncation). -/
def rrfFusedSorted (lexical semantic : List ChunkResult) (rrf_k : Nat) : List FusedEntry :=
  List.insertionSort entryLE (fusedEntries lexical semantic rrf_k)

/-- Model of `reciprocal_rank_fusion` (api.py lines 131-213): early exits for empty
inputs (lines 162-167), then fuse, sort, truncate to `k`, and write the fused
score into the returned `ChunkResult` objects (lines 206-213). -/
def reciprocal_rank_fusion (lexical semantic : List ChunkResult) (k : Nat)
    (rrf_k : Nat := 60) : List ChunkResult :=
  if lexical = [] ∧ semantic = [] then []
  else if lexical = [] then semantic.take k
  else if semantic = [] then lexical.take k
  else
    ((rrfFusedSorted lexical semantic rrf_k).take k).map
      (fun e => { e.item with score := e.score })

/-! Specification-side helpers used to state the fusion claims. -/

/-- First-seen deduplication: fold over ids keeping the first occurrence of
each, mirroring the key order of the fused dict. -/
def newIds (seen : List Int) (l : List Int) : List Int :=
  l.foldl (fun acc c => if c ∈ acc then acc else acc ++ [c]) seen

/-- The order in which chunk ids are first seen when scanning the lexical
list and then the semantic list. -/
def firstSeenIds (lexical semantic : List ChunkResult) : List Int :=
  newIds [] ((lexical ++ semantic).map (fun r => r.chunk_id))

/-- Total contribution of the pairs of `l` whose result has chunk id `c`. -/
def listContrib (c : Int) (l : List (ℚ × ChunkResult)) : ℚ :=
  ((l.filter (fun p => p.2.chunk_id = c)).map (fun p => p.1)).sum

/-- The RRF contribution of one candidate list to chunk id `c`: the sum of
`1 / (rrf_k + rank)` over the (1-based) ranks at which `c` occurs in the
list, hence `0` when `c` is absent from the list. -/
def rrfContrib (rrf_k : Nat) (l : List ChunkResult) (c : Int) : ℚ :=
  listContrib c (rrfScored rrf_k l)

/-- Sum of the scores of the fused entries whose chunk id is `c` (there is at
most one such entry). -/
def entryScore (c : Int) (f : List FusedEntry) : ℚ :=
  ((f.filter (fun e => e.item.chunk_id = c)).map (fun e => e.score)).sum

/-- The chunk ids of the fused entries, in insertion order. -/
def entryIds (f : List FusedEntry) : List Int :=
  f.map (fun e => e.item.chunk_id)

/-- The stored result object of the fused entry keyed by `c`, if any. -/
def entryItemOf (c : Int) (f : List FusedEntry) : Option ChunkResult :=
  (f.find? (fun e => e.item.chunk_id = c)).map (fun e => e.item)

/-- Predicate `PosAligned f` says the `pos` fields record the list positions. -/
def PosAligned (f : List FusedEntry) : Prop :=
  f.map (fun e => e.pos) = List.range f.length

/-- A `ChunkResult` with its `score` field cleared; used to state that fusion
reads no input score (it is rank-based), so that the score mutation performed
by a previous fusion call (api.py line 210 writes into the shared result
objects) cannot change the outcome of a repeated call. -/
def stripScore (r : ChunkResult) : ChunkResult :=
  { r with score := 0 }

/-! ## The chunker (`chunker.py`)

Python strings are modelled as lists of characters, so that the regex-based
splitting functions can be written as plain recursions. -/

/-- Texts are modelled as lists of characters. -/
abbrev Text := List Char

/-- Whitespace test used by `str.split()`, `str.strip()` and the `\s` regex
class. -/
def isWS (c : Char) : Bool := c.isWhitespace

/-- Model of `text.replace("\r\n", "\n")` (chunker.py line 6): left-to-right,
non-overlapping replacement. -/
def replaceCRLF : Text → Text
  | '\r' :: '\n' :: rest => '\n' :: replaceCRLF rest
  | c :: rest => c :: replaceCRLF rest
  | [] => []

/-- Emit a run of `run` newlines as the regex replacement leaves it: runs of
one or two newlines are kept, runs of three or more collapse to two. -/
def emitNlRun (run : Nat) : Text := List.replicate (min run 2) '\n'

/-- Helper for `collapseNewlines`: `run` counts the newlines of the current
(still open) newline run. -/
def collapseGo (run : Nat) : Text → Text
  | [] => emitNlRun run
  | c :: rest =>
    if c = '\n' then collapseGo (run + 1) rest
    else emitNlRun run ++ c :: collapseGo 0 rest

/-- Model of `re.sub(r"\n{3,}", "\n\n", text)` (chunker.py line 7): every
maximal run of three or more newlines collapses to exactly two. -/
def collapseNewlines (t : Text) : Text := collapseGo 0 t

/-- Model of `str.strip()`: drop leading and trailing whitespace. -/
def stripChars (t : Text) : Text :=
  ((t.dropWhile isWS).reverse.dropWhile isWS).reverse

/-- Model of `clean_text` (chunker.py lines 5-9). -/
def clean_text (t : Text) : Text :=
  stripChars (collapseNewlines (replaceCRLF t))

/-- Model of `text.split("\n\n")`: split at each leftmost non-overlapping occurrence
of two consecutive newlines; `acc` holds the current piece reversed. -/
def splitDoubleNl (acc : Text) : Text → List Text
  | '\n' :: '\n' :: rest => acc.reverse :: splitDoubleNl [] rest
  | c :: rest => splitDoubleNl (c :: acc) rest
  | [] => [acc.reverse]

/-- Model of `split_paragraphs` (chunker.py lines 12-14). -/
def split_paragraphs (t : Text) : List Text :=
  ((splitDoubleNl [] t).map stripChars).filter (fun p => p ≠ [])

/-- Whether the most recently consumed character (head of the reversed
accumulator) is one of the sentence terminators `.`, `!`, `?`. -/
def lastIsTerm (acc : Text) : Bool :=
  match acc with
  | p :: _ => p = '.' || p = '!' || p = '?'
  | [] => false

/-- Model of `re.split(r"(?<=[.!?])\s+", paragraph)`: cut at each maximal whitespace
run directly preceded by a sentence terminator.  `skipping` is true while the
matched whitespace run (the separator) is still being consumed. -/
def splitSentencesGo (skipping : Bool) (acc : Text) : Text → List Text
  | [] => [acc.reverse]
  | c :: rest =>
    if skipping then
      if isWS c then splitSentencesGo true acc rest
      else splitSentencesGo false [c] rest
    else if isWS c && lastIsTerm acc then
      acc.reverse :: splitSentencesGo true [] rest
    else
      splitSentencesGo false (c :: acc) rest

/-- Model of `split_sentences` (chunker.py lines 17-19). -/
def split_sentences (t : Text) : List Text :=
  ((splitSentencesGo false [] t).map stripChars).filter (fun p => p ≠ [])

/-- Helper for `countTokens`: `inWord` records whether the previous character
was part of a word. -/
def countTokensGo (inWord : Bool) : Text → Nat
  | [] => 0
  | c :: rest =>
    if isWS c then countTokensGo false rest
    else (if inWord then 0 else 1) + countTokensGo true rest

/-- Model of `len(s.split())` (chunker.py lines 38 and 52): the number of
whitespace-separated words. -/
def countTokens (t : Text) : Nat := countTokensGo false t

/-- Total token count of a list of sentences. -/
def sumTokens (l : List Text) : Nat := (l.map countTokens).sum

/-- The mutable state of `chunk_text`: emitted chunks, the current sentence
buffer, and its running token count. -/
structure ChunkerState where
  chunks : List (Text × Nat)
  current : List Text
  current_tokens : Nat
deriving DecidableEq, Repr

/-- The overlap loop of `add_chunk` (chunker.py lines 35-42): walk the
sentences of the just-emitted chunk from the end, keeping sentences while
the accumulated token count stays within the overlap budget; the kept
sentences are returned in reversed (i.e. end-first) order. -/
def takeWhileBudget (budget : Nat) (used : Nat) : List Text → List Text
  | [] => []
  | s :: rest =>
    if used + countTokens s > budget then []
    else s :: takeWhileBudget budget (used + countTokens s) rest

/-- The `overlap_parts` computed by `add_chunk` (chunker.py lines 35-42):
the trailing sentences of the emitted chunk that fit the overlap budget, in
original order (Python builds this list by front-insertion while iterating
the reversed sentence list). -/
def overlapParts (chunk_overlap : Nat) (chunk : Text) : List Text :=
  (takeWhileBudget chunk_overlap 0 (split_sentences chunk).reverse).reverse

/-- Model of `add_chunk` (chunker.py lines 28-47): emit the joined current
buffer with its running token count, then seed the next buffer with the
overlap parts (whose total token count is what Python tracks incrementally
as `overlap_tokens`). -/
def add_chunk (chunk_overlap : Nat) (st : ChunkerState) : ChunkerState :=
  if st.current = [] then st
  else
    let chunk := stripChars (List.intercalate [' '] st.current)
    let chunks' := st.chunks ++ [(chunk, st.current_tokens)]
    if chunk_overlap > 0 then
      { chunks := chunks', current := overlapParts chunk_overlap chunk,
        current_tokens := sumTokens (overlapParts chunk_overlap chunk) }
    else
      { chunks := chunks', current := [], current_tokens := 0 }

/-- The body of the sentence loop of `chunk_text` (chunker.py lines 51-56):
flush the buffer when adding the sentence would overflow the target size,
then append the sentence. -/
def processSentence (chunk_size chunk_overlap : Nat) (st : ChunkerState) (s : Text) :
    ChunkerState :=
  let tokens := countTokens s
  let st' :=
    if st.current_tokens + tokens > chunk_size ∧ st.current ≠ [] then
      add_chunk chunk_overlap st
    else st
  { st' with current := st'.current ++ [s], current_tokens := st'.current_tokens + tokens }

/-- One iteration of the paragraph loop of `chunk_text` (chunker.py lines
49-59): process the sentences, then commit at the paragraph boundary when the
buffer has reached the target size. -/
def processParagraph (chunk_size chunk_overlap : Nat) (st : ChunkerState) (para : Text) :
    ChunkerState :=
  let st' := (split_sentences para).foldl (processSentence chunk_size chunk_overlap) st
  if st'.current_tokens ≥ chunk_size then add_chunk chunk_overlap st' else st'

/-- Model of `chunk_text` (chunker.py lines 22-64). -/
def chunk_text (text : Text) (chunk_size : Nat := 450) (chunk_overlap : Nat := 80) :
    List (Text × Nat) :=
  let paragraphs := split_paragraphs (clean_text text)
  let st := paragraphs.foldl (processParagraph chunk_size chunk_overlap) ⟨[], [], 0⟩
  (if st.current ≠ [] then add_chunk chunk_overlap st else st).chunks

/-- The largest token count of any single sentence of the cleaned input. -/
def maxSentTokens (text : Text) : Nat :=
  ((split_paragraphs (clean_text text)).map
    (fun p => ((split_sentences p).map countTokens).foldr max 0)).foldr max 0

/-! ## The ingestion pipeline (`ingest.py` together with the schema of
`db.py`)

The `documents` table (db.py lines 41-48) has `id SERIAL PRIMARY KEY` and
`source_id TEXT UNIQUE`.  The `chunks` table (db.py lines 50-59) has
`id BIGSERIAL PRIMARY KEY` and carries NO other unique or exclusion
constraint (only plain indexes are created).  Tables are modelled as row
lists plus the serial counters. -/

structure DocRow where
  id : Nat
  source_id : String
  title : String
  url : String
  checksum : String
deriving DecidableEq, Repr

structure ChunkRow where
  id : Nat
  document_id : Nat
  chunk_index : Nat
  content : Text
  token_count : Nat
  embedding : List ℚ
  tsv_content : Text
deriving DecidableEq, Repr

structure Db where
  docs : List DocRow
  next_doc_id : Nat
  chunks : List ChunkRow
  next_chunk_id : Nat
deriving DecidableEq, Repr

/-- Model of `upsert_document` (ingest.py lines 22-33):
`INSERT ... ON CONFLICT (source_id) DO UPDATE SET checksum = EXCLUDED.checksum
RETURNING id`.  On conflict with an existing `source_id` ONLY the `checksum`
column is updated (the `title` and `url` arguments are ignored) and the
existing row id is returned; otherwise a fresh row is inserted. -/
def upsert_document (db : Db) (source_id title url checksum : String) : Nat × Db :=
  match db.docs.find? (fun d => d.source_id = source_id) with
  | some d =>
    (d.id, { db with docs := db.docs.map (fun r =>
      if r.source_id = source_id then { r with checksum := checksum } else r) })
  | none =>
    (db.next_doc_id,
      { db with
        docs := db.docs ++ [⟨db.next_doc_id, source_id, title, url, checksum⟩],
        next_doc_id := db.next_doc_id + 1 })

/-- Model of `insert_chunks` (ingest.py lines 36-57): build one record per chunk with
its 0-based `enumerate` index, then
`INSERT INTO chunks ... ON CONFLICT DO NOTHING`.  Since the `chunks` table
has no unique constraint other than the auto-assigned serial primary key
(db.py lines 50-59), a conflict can never occur and every record is
inserted.  `to_tsvector` is modelled as the chunk content itself (its value
never feeds back into any control flow modelled here). -/
def insert_chunks (db : Db) (document_id : Nat) (chunks : List (Text × Nat))
    (embeddings : List (List ℚ)) : Db :=
  (ranked 0 (chunks.zip embeddings)).foldl
    (fun d p =>
      { d with
        chunks := d.chunks ++
          [⟨d.next_chunk_id, document_id, p.1, p.2.1.1, p.2.1.2, p.2.2, p.2.1.1⟩],
        next_chunk_id := d.next_chunk_id + 1 })
    db

/-- One parsed review item as produced by `download_and_parse_dataset` /
`load_local_dataset` (ingest.py lines 72-118). -/
structure SourceRecord where
  source_id : String
  url : String
  text : Text
  title : String
deriving DecidableEq, Repr

/-- Model of `hashlib.sha256(text.encode()).hexdigest()` (ingest.py line
184): an opaque content fingerprint.  Its value is only ever stored, never
compared or branched on, in the code modelled here, so the hash is modelled
as the text itself. -/
def checksumOf (t : Text) : String := String.mk t

/-- One iteration of the per-record ingestion loop (ingest.py lines 178-189):
upsert the document, chunk the text, embed every chunk content
(`embedder.embed(contents)` is modelled by a per-content embedding function
`embedOf`), and insert the chunk records.  No deletion of existing chunks
takes place anywhere in this loop. -/
def processRecord (chunk_size chunk_overlap : Nat) (embedOf : Text → List ℚ)
    (db : Db) (item : SourceRecord) : Db :=
  let checksum := checksumOf item.text
  let r := upsert_document db item.source_id item.title item.url checksum
  let chunks := chunk_text item.text chunk_size chunk_overlap
  let embeddings := (chunks.map (fun c => c.1)).map embedOf
  insert_chunks r.2 r.1 chunks embeddings

/-- The persisted chunk rows owned by a document. -/
def chunksFor (document_id : Nat) (db : Db) : List ChunkRow :=
  db.chunks.filter (fun c => c.document_id = document_id)

/-! ## Settings and the `/query` endpoint (`config.py`, `api.py`)

`Settings` (config.py lines 8-27) is a pydantic model; its complete list of
field names is reproduced below.  There is no field named `rrf_k`, yet the
hybrid branch of the `/query` endpoint reads `settings.rrf_k`
(api.py line 232); on a pydantic `BaseModel` an access to an undeclared
attribute raises `AttributeError`. -/

structure Settings where
  database_url : String
  embedding_model : String
  embedding_dim : Nat
  chunk_size : Nat
  chunk_overlap : Nat
  dataset_names : List String
  dataset_base_url : String
  local_data_path : Option String
  max_reviews_per_dataset : Option Nat
  max_workers : Nat
  log_level : String
  request_timeout : Nat
  embed_concurrency : Nat
deriving DecidableEq, Repr

/-- The attribute names declared on `Settings` (config.py lines 9-23),
in declaration order. -/
def settingsFieldNames : List String :=
  ["database_url", "embedding_model", "embedding_dim", "chunk_size",
   "chunk_overlap", "dataset_names", "dataset_base_url", "local_data_path",
   "max_reviews_per_dataset", "max_workers", "log_level", "request_timeout",
   "embed_concurrency"]

/-- The value of the attribute access `settings.rrf_k` (api.py line 232):
`Settings` declares no `rrf_k` field (see `settingsFieldNames`), so the
lookup finds nothing — modelled as `none`; the endpoint model raises
`AttributeError` on `none`. -/
def settings_rrf_k : Option Nat := none

/-- Name of the attribute whose access fails in the hybrid branch. -/
def rrfAttrName : String := "rrf_k"

/-- Detail message of the 400 response for an empty query (api.py line 219). -/
def emptyQueryDetail : String := "Query cannot be empty"

/-- Detail message of the 422 response for an oversized rerank request
(reranker api.py lines 155-159; the actual message interpolates the counts,
which does not matter for any claim). -/
def tooManyDocsDetail : String := "Too many documents"

inductive QueryMode
  | lexical
  | semantic
  | hybrid
deriving DecidableEq, Repr

/-- Model of `QueryRequest` (api.py lines 20-23). -/
structure QueryRequest where
  query : String
  k : Nat
  mode : QueryMode
deriving DecidableEq, Repr

/-- The ways the modelled endpoints can raise: a fastapi `HTTPException`
with a detail message, or an uncaught Python exception such as
`AttributeError`. -/
inductive ApiError
  | httpError (status : Nat) (detail : String)
  | attributeError (name : String)
deriving DecidableEq, Repr

/-- Model of `QueryResponse` (api.py lines 35-37). -/
structure QueryResponse where
  mode : QueryMode
  results : List ChunkResult
deriving DecidableEq, Repr

/-- The `/query` endpoint (api.py lines 216-234).  The two database searches
are external effects; their result lists (`lexicalHits`, `semanticHits`,
both truncated to `k` by their SQL `LIMIT k`) are passed in as parameters.
In hybrid mode the code evaluates `settings.rrf_k` before fusing; since
`Settings` has no such field the access raises. -/
def queryEndpoint (payload : QueryRequest) (lexicalHits semanticHits : List ChunkResult) :
    Except ApiError QueryResponse :=
  if stripChars payload.query.toList = [] then
    Except.error (ApiError.httpError 400 emptyQueryDetail)
  else
    match payload.mode with
    | QueryMode.lexical => Except.ok ⟨payload.mode, lexicalHits⟩
    | QueryMode.semantic => Except.ok ⟨payload.mode, semanticHits⟩
    | QueryMode.hybrid =>
      match settings_rrf_k with
      | none => Except.error (ApiError.attributeError rrfAttrName)
      | some v =>
        Except.ok ⟨payload.mode, reciprocal_rank_fusion lexicalHits semanticHits payload.k v⟩

/-! ## The reranker service (`src/reranker/src/reranker_service/api.py`) -/

/-- Model of `Document` (reranker api.py lines 39-47). -/
structure RerankDocument where
  chunk_id : Option Int
  document_id : Option Int
  content : String
  score : Option ℚ
  source_url : Option String
  source_title : Option String
deriving DecidableEq, Repr

/-- Model of `RankedDocument` (reranker api.py lines 66-77). -/
structure RankedDocument where
  rank : Nat
  chunk_id : Option Int
  document_id : Option Int
  content : String
  reranker_score : ℚ
  original_score : Option ℚ
  source_url : Option String
  source_title : Option String
deriving DecidableEq, Repr

/-- Model of `RerankRequest` (reranker api.py lines 50-63). -/
structure RerankRequest where
  query : String
  documents : List RerankDocument
  top_k : Option Nat
deriving DecidableEq, Repr

/-- Model of `RerankResponse` (reranker api.py lines 79-84).  The wall-clock
`latency_ms` field is not modelled (real time is outside the embedding). -/
structure RerankResponse where
  query : String
  results : List RankedDocument
  reranked_count : Nat
  returned_count : Nat
deriving DecidableEq, Repr

/-- The ordering of `sorted(enumerate(scores), key=lambda x: x[1],
reverse=True)` (reranker api.py line 172): Python's sort is stable, so
entries with equal scores keep their enumeration order; as the enumeration
indices are pairwise distinct this is exactly the sort by (score descending,
original index ascending). -/
def scoreOrder (a b : Nat × ℚ) : Prop :=
  b.2 < a.2 ∨ (a.2 = b.2 ∧ a.1 ≤ b.1)

instance : DecidableRel scoreOrder := fun a b => by
  unfold scoreOrder; exact inferInstance

/-- The sorted `indexed` list of (original index, score) pairs
(reranker api.py line 172). -/
def rerankOrder (scores : List ℚ) : List (Nat × ℚ) :=
  List.insertionSort scoreOrder (ranked 0 scores)

/-- Default used only to totalize list indexing in the model; the endpoint
theorem shows every index it is applied to is in range. -/
def defaultRerankDocument : RerankDocument := ⟨none, none, "", none, none, none⟩

/-- The `/rerank` endpoint (reranker api.py lines 146-208).  The cross-encoder
scores are an external effect of `_rerank_async`; the claim assumes the
scoring call succeeds, so the score list (one float per document, in input
order) is a parameter.  `max_docs` is `settings.max_docs_per_request`. -/
def rerank (max_docs : Nat) (request : RerankRequest) (scores : List ℚ) :
    Except ApiError RerankResponse :=
  if request.documents.length > max_docs then
    Except.error (ApiError.httpError 422 tooManyDocsDetail)
  else
    let indexed := rerankOrder scores
    let top_k := min (request.top_k.getD request.documents.length) request.documents.length
    let results := (ranked 1 (indexed.take top_k)).map (fun p =>
      let doc := request.documents.getD p.2.1 defaultRerankDocument
      ⟨p.1, doc.chunk_id, doc.document_id, doc.content, p.2.2, doc.score,
        doc.source_url, doc.source_title⟩)
    Except.ok ⟨request.query, results, request.documents.length, results.length⟩

/-! ## Spec-side helper definitions and concrete inputs used by the claims -/

/-- Strips the item score of a fused entry; companion of `stripScore`. -/
def estrip (e : FusedEntry) : FusedEntry :=
  ⟨e.pos, stripScore e.item, e.score⟩

/-- Invariant of the chunker state maintained by `chunk_text` for a target
size, an overlap budget and a bound `M` on the token count of any sentence
ever placed into the buffer:  the running count equals the buffer's total
token count; every buffered sentence has at most `M` tokens; the buffer
total is within the target, or within the overlap budget plus its last
sentence's tokens; and every emitted chunk satisfies the claimed bound. -/
def StInv (chunk_size chunk_overlap M : Nat) (st : ChunkerState) : Prop :=
  (∀ s ∈ st.current, countTokens s ≤ M) ∧
  st.current_tokens = sumTokens st.current ∧
  (st.current_tokens ≤ chunk_size ∨
    ∃ s₀ rest, st.current = rest ++ [s₀] ∧
      st.current_tokens ≤ chunk_overlap + countTokens s₀) ∧
  (∀ p ∈ st.chunks, p.2 ≤ chunk_size ∨ p.2 ≤ chunk_overlap + M)

/-- Lexical candidate A of the worked RRF example (rank 1). -/
def resA : ChunkResult := ⟨1, 10, "A", 9/10, none, none⟩

/-- Lexical candidate B of the worked RRF example (rank 2). -/
def resB : ChunkResult := ⟨2, 10, "B", 8/10, none, none⟩

/-- Semantic occurrence of candidate B (rank 1; distances differ from
lexical scores, which fusion never reads). -/
def resBsem : ChunkResult := ⟨2, 10, "B", 1/10, none, none⟩

/-- Semantic candidate C of the worked RRF example (rank 2). -/
def resC : ChunkResult := ⟨3, 11, "C", 2/10, none, none⟩

/-- Semantic candidate with a raw distance score of 7, used to exhibit the
empty-lexical early exit of fusion. -/
def c5sem : ChunkResult := ⟨7, 20, "C5", 7, none, none⟩

/-- Input text of the chunker counterexample: three sentences of 2, 2 and 4
tokens. -/
def c7text : Text := ("a b. c d. e f g h.").toList

/-- An empty database with serial counters at 1. -/
def db0 : Db := ⟨[], 1, [], 1⟩

/-- Embedding function used by the ingestion examples (embedding values are
irrelevant to every claim about ingestion). -/
def noEmbed : Text → List ℚ := fun _ => []

/-- A parsed review record ingested in the idempotence example. -/
def rec2 : SourceRecord := ⟨"Baby:B01:R1:0", "u", ("hello world.").toList, "t"⟩

/-- Database state holding the document of `rec3` with two previously
persisted chunks (as left by an earlier ingestion run with different
chunking parameters). -/
def db3 : Db :=
  ⟨[⟨1, "Baby:B01:R1:0", "t", "u", "old"⟩], 2,
   [⟨1, 1, 0, ("old zero.").toList, 2, [], ("old zero.").toList⟩,
    ⟨2, 1, 1, ("old one.").toList, 2, [], ("old one.").toList⟩], 3⟩

/-- Re-ingested record for the document of `db3`, now chunking to a single
fresh chunk. -/
def rec3 : SourceRecord := ⟨"Baby:B01:R1:0", "u", ("fresh text.").toList, "t"⟩

/-- The stored document row of the upsert example. -/
def row9 : DocRow := ⟨1, "s1", "old title", "old url", "old sum"⟩

/-- Database with one document row, used for the upsert example. -/
def db9 : Db := ⟨[row9], 2, [], 1⟩

/-- Arguments of the conflicting upsert in the example. -/
def c9sid : String := "s1"

/-- New title offered by the conflicting upsert (ignored by the SQL). -/
def c9title : String := "new title"

/-- New url offered by the conflicting upsert (ignored by the SQL). -/
def c9url : String := "new url"

/-- New checksum offered by the conflicting upsert (applied by the SQL). -/
def c9sum : String := "new sum"

/-- A hybrid query payload with a non-empty query. -/
def payload1 : QueryRequest := ⟨"hello", 5, QueryMode.hybrid⟩

/-- Three documents for the rerank example. -/
def rerankDocs : List RerankDocument :=
  [⟨some 1, some 10, "d0", some (9/10), none, none⟩,
   ⟨some 2, some 10, "d1", some (8/10), none, none⟩,
   ⟨some 3, some 11, "d2", some (7/10), none, none⟩]

/-- Cross-encoder scores for `rerankDocs`, with a tie between the first and
third document. -/
def rerankScores : List ℚ := [1/2, 3/4, 1/2]

/-! ### Invariants of the fused-dict construction -/

theorem entryIds_fuseOne (f : List FusedEntry) (r : ChunkResult) (s : ℚ) :
    entryIds (fuseOne f r s) =
      if r.chunk_id ∈ entryIds f then entryIds f else entryIds f ++ [r.chunk_id] := by
  unfold fuseOne entryIds
  split
  · simp only [List.map_map]
    apply List.map_congr_left
    intro e _
    by_cases h : e.item.chunk_id = r.chunk_id <;> simp [h]
  · simp

theorem entryIds_fuseSteps (f : List FusedEntry) (l : List (ℚ × ChunkResult)) :
    entryIds (fuseSteps f l) = newIds (entryIds f) (l.map (fun p => p.2.chunk_id)) := by
  induction l generalizing f with
  | nil => rfl
  | cons p l ih =>
    simp only [fuseSteps, List.foldl_cons, List.map_cons, newIds, List.foldl]
    rw [← fuseSteps, ← newIds, ih, entryIds_fuseOne]

theorem newIds_nodup (seen : List Int) (l : List Int) (h : seen.Nodup) :
    (newIds seen l).Nodup := by
  induction l generalizing seen with
  | nil => exact h
  | cons c l ih =>
    simp only [newIds, List.foldl_cons]
    rw [← newIds]
    by_cases hc : c ∈ seen
    · rw [if_pos hc]
      exact ih seen h
    · rw [if_neg hc]
      refine ih _ ?_
      simp [List.nodup_append, h, hc]

theorem newIds_append (seen : List Int) (l₁ l₂ : List Int) :
    newIds seen (l₁ ++ l₂) = newIds (newIds seen l₁) l₂ :=
  List.foldl_append _ _ _ _

theorem mem_newIds (seen : List Int) (l : List Int) (c : Int) :
    c ∈ newIds seen l ↔ c ∈ seen ∨ c ∈ l := by
  induction l generalizing seen with
  | nil => simp [newIds]
  | cons d l ih =>
    simp only [newIds, List.foldl_cons]
    rw [← newIds]
    by_cases hd : d ∈ seen
    · rw [if_pos hd, ih]
      simp only [List.mem_cons]
      constructor
      · tauto
      · rintro (h | rfl | h)
        · exact Or.inl h
        · exact Or.inl hd
        · exact Or.inr h
    · rw [if_neg hd, ih]
      simp only [List.mem_append, List.mem_singleton, List.mem_cons]
      tauto

theorem posAligned_fuseOne (f : List FusedEntry) (r : ChunkResult) (s : ℚ)
    (h : PosAligned f) : PosAligned (fuseOne f r s) := by
  unfold fuseOne
  split
  · unfold PosAligned at *
    simp only [List.map_map, List.length_map]
    rw [show ((fun e => FusedEntry.pos e) ∘ fun e =>
        if e.item.chunk_id = r.chunk_id then { e with score := e.score + s } else e) =
        (fun e => e.pos) from ?_]
    · exact h
    · funext e
      by_cases hc : e.item.chunk_id = r.chunk_id <;> simp [hc]
  · unfold PosAligned at *
    simp only [List.map_append, List.length_append, List.map_cons, List.map_nil,
      List.length_cons, List.length_nil]
    rw [h]
    rw [show f.length + (0 + 1) = f.length + 1 by omega, List.range_succ]

theorem posAligned_fuseSteps (f : List FusedEntry) (l : List (ℚ × ChunkResult))
    (h : PosAligned f) : PosAligned (fuseSteps f l) := by
  induction l generalizing f with
  | nil => exact h
  | cons p l ih =>
    simp only [fuseSteps, List.foldl_cons]
    rw [← fuseSteps]
    exact ih _ (posAligned_fuseOne _ _ _ h)

theorem nodup_entryIds_fuseOne (f : List FusedEntry) (r : ChunkResult) (s : ℚ)
    (h : (entryIds f).Nodup) : (entryIds (fuseOne f r s)).Nodup := by
  rw [entryIds_fuseOne]
  by_cases hm : r.chunk_id ∈ entryIds f
  · rwa [if_pos hm]
  · rw [if_neg hm]
    simp [List.nodup_append, h, hm]

theorem nodup_entryIds_fuseSteps (f : List FusedEntry) (l : List (ℚ × ChunkResult))
    (h : (entryIds f).Nodup) : (entryIds (fuseSteps f l)).Nodup := by
  rw [entryIds_fuseSteps]
  exact newIds_nodup _ _ h

theorem filter_eq_nil_of_not_mem (f : List FusedEntry) (c : Int)
    (h : c ∉ entryIds f) : f.filter (fun e => e.item.chunk_id = c) = [] := by
  rw [List.filter_eq_nil_iff]
  intro e he
  simp only [decide_eq_true_eq]
  intro hc
  exact h (by simpa [entryIds, hc] using List.mem_map_of_mem (fun e => e.item.chunk_id) he)

theorem filter_eq_singleton_of_nodup (f : List FusedEntry) (c : Int)
    (hnd : (entryIds f).Nodup) (hm : c ∈ entryIds f) :
    ∃ e, f.filter (fun e => e.item.chunk_id = c) = [e] ∧ e ∈ f ∧ e.item.chunk_id = c := by
  induction f with
  | nil => simp [entryIds] at hm
  | cons e f ih =>
    simp only [entryIds, List.map_cons, List.nodup_cons] at hnd
    by_cases hc : e.item.chunk_id = c
    · refine ⟨e, ?_, List.mem_cons_self e f, hc⟩
      rw [List.filter_cons_of_pos (by simpa using hc)]
      rw [filter_eq_nil_of_not_mem f c (by rw [← hc]; exact fun hx => hnd.1 (by simpa [entryIds] using hx))]
    · simp only [entryIds, List.map_cons, List.mem_cons] at hm
      rcases hm with hm | hm
      · exact absurd hm.symm hc
      · obtain ⟨e', h1, h2, h3⟩ := ih hnd.2 hm
        exact ⟨e', by rw [List.filter_cons_of_neg (by simpa using hc)]; exact h1,
          List.mem_cons_of_mem _ h2, h3⟩

theorem filterPred_comp_update (r : ChunkResult) (s : ℚ) (c : Int) :
    ((fun e : FusedEntry => decide (e.item.chunk_id = c)) ∘ fun e : FusedEntry =>
      if e.item.chunk_id = r.chunk_id then { e with score := e.score + s } else e) =
      fun e : FusedEntry => decide (e.item.chunk_id = c) := by
  funext e
  by_cases hc : e.item.chunk_id = r.chunk_id <;> simp [hc]

theorem entryScore_fuseOne (f : List FusedEntry) (r : ChunkResult) (s : ℚ) (c : Int)
    (hnd : (entryIds f).Nodup) :
    entryScore c (fuseOne f r s) = entryScore c f + (if r.chunk_id = c then s else 0) := by
  unfold fuseOne
  by_cases hm : r.chunk_id ∈ entryIds f
  · rw [if_pos (by simpa [entryIds] using hm)]
    unfold entryScore
    rw [List.filter_map, filterPred_comp_update r s c]
    by_cases hcr : r.chunk_id = c
    · obtain ⟨e₀, heq, _, hid⟩ := filter_eq_singleton_of_nodup f c hnd (hcr ▸ hm)
      rw [heq, if_pos hcr]
      have her : e₀.item.chunk_id = r.chunk_id := by rw [hid, hcr]
      simp [her]
    · rw [if_neg hcr, add_zero, List.map_map]
      congr 1
      apply List.map_congr_left
      intro e he
      have hc : e.item.chunk_id = c := by simpa using (List.mem_filter.mp he).2
      simp only [Function.comp]
      rw [if_neg (fun hx => hcr (by rw [← hx]; exact hc))]
  · rw [if_neg (by simpa [entryIds] using hm)]
    unfold entryScore
    rw [List.filter_append, List.map_append, List.sum_append]
    congr 1
    by_cases hcr : r.chunk_id = c <;> simp [hcr]

theorem listContrib_cons (c : Int) (p : ℚ × ChunkResult) (l : List (ℚ × ChunkResult)) :
    listContrib c (p :: l) = (if p.2.chunk_id = c then p.1 else 0) + listContrib c l := by
  unfold listContrib
  by_cases hc : p.2.chunk_id = c
  · rw [List.filter_cons_of_pos (by simpa using hc), if_pos hc]
    simp
  · rw [List.filter_cons_of_neg (by simpa using hc), if_neg hc]
    simp

theorem entryScore_fuseSteps (f : List FusedEntry) (l : List (ℚ × ChunkResult)) (c : Int)
    (hnd : (entryIds f).Nodup) :
    entryScore c (fuseSteps f l) = entryScore c f + listContrib c l := by
  induction l generalizing f with
  | nil => simp [fuseSteps, listContrib]
  | cons p l ih =>
    simp only [fuseSteps, List.foldl_cons]
    rw [← fuseSteps, ih _ (nodup_entryIds_fuseOne f p.2 p.1 hnd),
      entryScore_fuseOne f p.2 p.1 c hnd, listContrib_cons]
    ring

theorem entryItemOf_fuseOne (f : List FusedEntry) (r : ChunkResult) (s : ℚ) (c : Int) :
    entryItemOf c (fuseOne f r s) =
      match entryItemOf c f with
      | some x => some x
      | none => if r.chunk_id = c then some r else none := by
  unfold fuseOne
  by_cases hm : r.chunk_id ∈ f.map (fun e => e.item.chunk_id)
  · rw [if_pos hm]
    unfold entryItemOf
    rw [List.find?_map, filterPred_comp_update r s c]
    cases hf : f.find? (fun e => e.item.chunk_id = c) with
    | none =>
      have hnm : c ∉ f.map (fun e => e.item.chunk_id) := by
        intro hx
        obtain ⟨e, he, hid⟩ := List.mem_map.mp hx
        have := List.find?_eq_none.mp hf e he
        simp [hid] at this
      have hrc : ¬(r.chunk_id = c) := fun hx => hnm (hx ▸ hm)
      simp [hrc]
    | some e =>
      have hc : e.item.chunk_id = c := by
        have := List.find?_some hf
        simpa using this
      by_cases hcr : e.item.chunk_id = r.chunk_id <;> simp [hcr]
  · rw [if_neg hm]
    unfold entryItemOf
    rw [List.find?_append]
    cases hf : f.find? (fun e => e.item.chunk_id = c) with
    | none => by_cases hcr : r.chunk_id = c <;> simp [List.find?, hcr]
    | some e => simp

theorem entryItemOf_fuseSteps (f : List FusedEntry) (l : List (ℚ × ChunkResult)) (c : Int) :
    entryItemOf c (fuseSteps f l) =
      match entryItemOf c f with
      | some x => some x
      | none => (l.find? (fun p => p.2.chunk_id = c)).map (fun p => p.2) := by
  induction l generalizing f with
  | nil => cases h : entryItemOf c f <;> simp [fuseSteps, h]
  | cons p l ih =>
    simp only [fuseSteps, List.foldl_cons]
    rw [← fuseSteps, ih, entryItemOf_fuseOne]
    cases h : entryItemOf c f with
    | some x => rfl
    | none =>
      by_cases hc : p.2.chunk_id = c
      · rw [if_pos hc, List.find?_cons_of_pos _ (by simpa using hc)]
        rfl
      · rw [if_neg hc, List.find?_cons_of_neg _ (by simpa using hc)]

/-! ### Properties of the per-list RRF scoring -/

theorem ranked_map_snd (n : Nat) (l : List α) : (ranked n l).map (fun p => p.2) = l := by
  induction l generalizing n with
  | nil => rfl
  | cons a l ih => simp [ranked, ih]

theorem chunkIds_rrfScored (rrf_k : Nat) (l : List ChunkResult) :
    (rrfScored rrf_k l).map (fun p => p.2.chunk_id) = l.map (fun r => r.chunk_id) := by
  unfold rrfScored
  rw [List.map_map]
  have : ((fun p : ℚ × ChunkResult => p.2.chunk_id) ∘
      fun p : Nat × ChunkResult => ((1 : ℚ) / ((rrf_k : ℚ) + (p.1 : ℚ)), p.2)) =
      (fun r : ChunkResult => r.chunk_id) ∘ (fun p : Nat × ChunkResult => p.2) := rfl
  rw [this, ← List.map_map, ranked_map_snd]

theorem find?_rrfScored (rrf_k : Nat) (l : List ChunkResult) (c : Int) :
    ((rrfScored rrf_k l).find? (fun p => p.2.chunk_id = c)).map (fun p => p.2) =
      l.find? (fun r => r.chunk_id = c) := by
  suffices h : ∀ n, (((ranked n l).map
      (fun p => ((1 : ℚ) / ((rrf_k : ℚ) + (p.1 : ℚ)), p.2))).find?
      (fun p => p.2.chunk_id = c)).map (fun p => p.2) = l.find? (fun r => r.chunk_id = c) from h 1
  intro n
  induction l generalizing n with
  | nil => rfl
  | cons a l ih =>
    simp only [ranked, List.map_cons]
    by_cases hc : a.chunk_id = c
    · rw [List.find?_cons_of_pos _ (by simpa using hc),
        List.find?_cons_of_pos _ (by simpa using hc)]
      rfl
    · rw [List.find?_cons_of_neg _ (by simpa using hc),
        List.find?_cons_of_neg _ (by simpa using hc)]
      exact ih (n + 1)

/-- With pairwise-distinct chunk ids, the contribution of a ranked list to a
chunk id that occurs at 0-based position `i` is `1 / (rrf_k + n + i)` where
`n` is the start rank, and `0` for an absent chunk id. -/
theorem listContrib_ranked (rrf_k : Nat) (l : List ChunkResult) (c : Int) (n : Nat)
    (hnd : (l.map (fun r => r.chunk_id)).Nodup) :
    listContrib c ((ranked n l).map (fun p => ((1 : ℚ) / ((rrf_k : ℚ) + (p.1 : ℚ)), p.2))) =
      if c ∈ l.map (fun r => r.chunk_id) then
        (1 : ℚ) / ((rrf_k : ℚ) + (n : ℚ) + ((l.map (fun r => r.chunk_id)).indexOf c : ℚ))
      else 0 := by
  induction l generalizing n with
  | nil => simp [ranked, listContrib]
  | cons a l ih =>
    simp only [List.map_cons, List.nodup_cons] at hnd
    simp only [ranked, List.map_cons, listContrib_cons]
    by_cases hc : a.chunk_id = c
    · rw [if_pos hc, ih (n + 1) hnd.2, if_neg (fun hx => hnd.1 (hc ▸ hx)),
        if_pos (by simp [hc]), hc, List.indexOf_cons_self]
      push_cast
      ring
    · rw [if_neg hc, ih (n + 1) hnd.2]
      by_cases hmem : c ∈ l.map (fun r => r.chunk_id)
      · rw [if_pos hmem, if_pos (List.mem_cons_of_mem _ hmem),
          List.indexOf_cons_ne _ (by simpa using hc)]
        push_cast
        ring_nf
      · have hnm : c ∉ a.chunk_id :: l.map (fun r => r.chunk_id) := by
          simp only [List.mem_cons]
          rintro (h | h)
          · exact hc h.symm
          · exact hmem h
        rw [if_neg hmem, if_neg hnm, zero_add]

theorem rrfContrib_eq (rrf_k : Nat) (l : List ChunkResult) (c : Int)
    (hnd : (l.map (fun r => r.chunk_id)).Nodup) :
    rrfContrib rrf_k l c =
      if c ∈ l.map (fun r => r.chunk_id) then
        (1 : ℚ) / ((rrf_k : ℚ) + (((l.map (fun r => r.chunk_id)).indexOf c : ℚ) + 1))
      else 0 := by
  unfold rrfContrib rrfScored
  rw [listContrib_ranked rrf_k l c 1 hnd]
  by_cases hmem : c ∈ l.map (fun r => r.chunk_id)
  · rw [if_pos hmem, if_pos hmem]
    push_cast
    ring_nf
  · rw [if_neg hmem, if_neg hmem]

/-! ### Properties of the fused dict and the sorted fused list -/

theorem entryIds_fusedEntries (lexical semantic : List ChunkResult) (rrf_k : Nat) :
    entryIds (fusedEntries lexical semantic rrf_k) = firstSeenIds lexical semantic := by
  unfold fusedEntries firstSeenIds
  rw [entryIds_fuseSteps, entryIds_fuseSteps, chunkIds_rrfScored, chunkIds_rrfScored,
    List.map_append, newIds_append]
  rfl

theorem entryIds_nil : entryIds [] = [] := rfl

theorem nodup_entryIds_fusedEntries (lexical semantic : List ChunkResult) (rrf_k : Nat) :
    (entryIds (fusedEntries lexical semantic rrf_k)).Nodup :=
  nodup_entryIds_fuseSteps _ _
    (nodup_entryIds_fuseSteps _ _ (entryIds_nil ▸ List.nodup_nil))

theorem posAligned_fusedEntries (lexical semantic : List ChunkResult) (rrf_k : Nat) :
    PosAligned (fusedEntries lexical semantic rrf_k) :=
  posAligned_fuseSteps _ _ (posAligned_fuseSteps _ _ (by simp [PosAligned]))

theorem entryScore_fusedEntries (lexical semantic : List ChunkResult) (rrf_k : Nat) (c : Int) :
    entryScore c (fusedEntries lexical semantic rrf_k) =
      rrfContrib rrf_k lexical c + rrfContrib rrf_k semantic c := by
  unfold fusedEntries
  rw [entryScore_fuseSteps _ _ _ (nodup_entryIds_fuseSteps _ _ (entryIds_nil ▸ List.nodup_nil)),
    entryScore_fuseSteps _ _ _ (entryIds_nil ▸ List.nodup_nil)]
  simp only [entryScore, List.filter_nil, List.map_nil, List.sum_nil, zero_add]
  rfl

theorem entryItemOf_fusedEntries (lexical semantic : List ChunkResult) (rrf_k : Nat) (c : Int) :
    entryItemOf c (fusedEntries lexical semantic rrf_k) =
      match lexical.find? (fun r => r.chunk_id = c) with
      | some r => some r
      | none => semantic.find? (fun r => r.chunk_id = c) := by
  unfold fusedEntries
  rw [entryItemOf_fuseSteps, entryItemOf_fuseSteps]
  have hnil : entryItemOf c [] = none := rfl
  rw [hnil]
  rw [show (match (none : Option ChunkResult) with
      | some x => some x
      | none => ((rrfScored rrf_k lexical).find? (fun p => p.2.chunk_id = c)).map
          (fun p => p.2)) = ((rrfScored rrf_k lexical).find?
          (fun p => p.2.chunk_id = c)).map (fun p => p.2) from rfl]
  rw [find?_rrfScored]
  cases lexical.find? (fun r => r.chunk_id = c) with
  | some r => rfl
  | none => rw [find?_rrfScored]

theorem sorted_rrfFusedSorted (lexical semantic : List ChunkResult) (rrf_k : Nat) :
    List.Sorted entryLE (rrfFusedSorted lexical semantic rrf_k) :=
  List.sorted_insertionSort entryLE _

theorem perm_rrfFusedSorted (lexical semantic : List ChunkResult) (rrf_k : Nat) :
    (rrfFusedSorted lexical semantic rrf_k).Perm (fusedEntries lexical semantic rrf_k) :=
  List.perm_insertionSort entryLE _

theorem pos_inj_of_posAligned (f : List FusedEntry) (hpa : PosAligned f) :
    ∀ a ∈ f, ∀ b ∈ f, a.pos = b.pos → a = b := by
  intro a ha b hb hab
  have hnd : (f.map (fun e => e.pos)).Nodup := by
    rw [hpa]; exact List.nodup_range f.length
  exact List.inj_on_of_nodup_map hnd ha hb hab

theorem indexOf_entryIds_eq_pos (f : List FusedEntry) (hpa : PosAligned f)
    (hnd : (entryIds f).Nodup) :
    ∀ e ∈ f, (entryIds f).indexOf e.item.chunk_id = e.pos := by
  intro e he
  obtain ⟨i, hi⟩ := List.mem_iff_get.mp he
  have hi' : f[i.val] = e := by simpa using hi
  have hlen : i.val < (entryIds f).length := by
    simp only [entryIds, List.length_map]
    exact i.isLt
  have hid : (entryIds f).get ⟨i.val, hlen⟩ = e.item.chunk_id := by
    simp only [entryIds, List.get_eq_getElem, List.getElem_map]
    rw [hi']
  have hidx := List.get_indexOf hnd ⟨i.val, hlen⟩
  rw [hid] at hidx
  have hlen2 : i.val < (f.map (fun e => e.pos)).length := by
    simp only [List.length_map]
    exact i.isLt
  have hpos1 : (f.map (fun e => e.pos)).get ⟨i.val, hlen2⟩ = e.pos := by
    simp only [List.get_eq_getElem, List.getElem_map]
    rw [hi']
  have hpos2 := List.get_of_eq hpa ⟨i.val, hlen2⟩
  rw [hpos1] at hpos2
  have hpos3 : e.pos = i.val := by
    rw [hpos2]
    simp [List.get_eq_getElem, List.getElem_range]
  rw [hidx, hpos3]

/-- On non-empty inputs, fusion takes the fused-sorted branch. -/
theorem rrf_of_ne_nil (lexical semantic : List ChunkResult) (k rrf_k : Nat)
    (hlex : lexical ≠ []) (hsem : semantic ≠ []) :
    reciprocal_rank_fusion lexical semantic k rrf_k =
      ((rrfFusedSorted lexical semantic rrf_k).take k).map
        (fun e => { e.item with score := e.score }) := by
  unfold reciprocal_rank_fusion
  rw [if_neg (fun h => hlex h.1), if_neg hlex, if_neg hsem]

/-- With pairwise-distinct entry ids, `find?` keyed by a member's id returns
that member. -/
theorem find?_entry_of_mem_nodup (f : List FusedEntry) (e : FusedEntry)
    (hnd : (entryIds f).Nodup) (he : e ∈ f) :
    f.find? (fun x => x.item.chunk_id = e.item.chunk_id) = some e := by
  induction f with
  | nil => cases he
  | cons a f ih =>
    simp only [entryIds, List.map_cons, List.nodup_cons] at hnd
    rcases List.mem_cons.mp he with rfl | he'
    · exact List.find?_cons_of_pos _ (by simp)
    · have hne : ¬(a.item.chunk_id = e.item.chunk_id) := by
        intro hx
        exact hnd.1 (hx ▸ List.mem_map_of_mem (fun x => x.item.chunk_id) he')
      rw [List.find?_cons_of_neg _ (by simpa using hne)]
      exact ih hnd.2 he'

/-- With pairwise-distinct entry ids, the score sum keyed by a member's id is
that member's score. -/
theorem entryScore_of_mem_nodup (f : List FusedEntry) (e : FusedEntry)
    (hnd : (entryIds f).Nodup) (he : e ∈ f) :
    entryScore e.item.chunk_id f = e.score := by
  obtain ⟨e', heq, he', hid⟩ :=
    filter_eq_singleton_of_nodup f e.item.chunk_id hnd
      (List.mem_map_of_mem (fun x => x.item.chunk_id) he)
  have : e' = e := List.inj_on_of_nodup_map hnd he' he hid
  rw [entryScore, heq, this]
  simp

/-- The sorted fused list is strictly ordered: score strictly descending, and
for equal scores dict-insertion position strictly increasing. -/
theorem pairwise_strict_rrfFusedSorted (lexical semantic : List ChunkResult) (rrf_k : Nat) :
    List.Pairwise (fun a b : FusedEntry =>
      b.score < a.score ∨ (a.score = b.score ∧ a.pos < b.pos))
      (rrfFusedSorted lexical semantic rrf_k) := by
  have hnd : (entryIds (fusedEntries lexical semantic rrf_k)).Nodup :=
    nodup_entryIds_fusedEntries lexical semantic rrf_k
  have hnodup : (fusedEntries lexical semantic rrf_k).Nodup := hnd.of_map
  have hnodup' : (rrfFusedSorted lexical semantic rrf_k).Nodup :=
    ((perm_rrfFusedSorted lexical semantic rrf_k).nodup_iff).mpr hnodup
  have hsorted := sorted_rrfFusedSorted lexical semantic rrf_k
  have hcomb := List.Pairwise.and hsorted hnodup'
  refine hcomb.imp_of_mem ?_
  intro a b ha hb hab
  obtain ⟨hle, hne⟩ := hab
  rcases hle with hlt | ⟨heq, hpos⟩
  · exact Or.inl hlt
  · refine Or.inr ⟨heq, lt_of_le_of_ne hpos ?_⟩
    intro hpe
    have ha' : a ∈ fusedEntries lexical semantic rrf_k :=
      (perm_rrfFusedSorted lexical semantic rrf_k).mem_iff.mp ha
    have hb' : b ∈ fusedEntries lexical semantic rrf_k :=
      (perm_rrfFusedSorted lexical semantic rrf_k).mem_iff.mp hb
    exact hne (pos_inj_of_posAligned _ (posAligned_fusedEntries lexical semantic rrf_k)
      a ha' b hb' hpe)

/-! ### Fusion reads no input score (score-obliviousness) -/

theorem fuseOne_estrip (f : List FusedEntry) (r : ChunkResult) (s : ℚ) :
    fuseOne (f.map estrip) (stripScore r) s = (fuseOne f r s).map estrip := by
  unfold fuseOne
  have hids : (f.map estrip).map (fun e => e.item.chunk_id) =
      f.map (fun e => e.item.chunk_id) := by
    rw [List.map_map]; rfl
  have hrid : (stripScore r).chunk_id = r.chunk_id := rfl
  rw [hids, hrid]
  by_cases hm : r.chunk_id ∈ f.map (fun e => e.item.chunk_id)
  · rw [if_pos hm, if_pos hm, List.map_map, List.map_map]
    apply List.map_congr_left
    intro e _
    by_cases hc : e.item.chunk_id = r.chunk_id <;>
      simp [Function.comp, estrip, stripScore, hc]
  · rw [if_neg hm, if_neg hm]
    simp [estrip]

theorem fuseSteps_estrip (f : List FusedEntry) (l : List (ℚ × ChunkResult)) :
    fuseSteps (f.map estrip) (l.map (fun p => (p.1, stripScore p.2))) =
      (fuseSteps f l).map estrip := by
  induction l generalizing f with
  | nil => rfl
  | cons p l ih =>
    simp only [fuseSteps, List.map_cons, List.foldl_cons]
    rw [← fuseSteps, ← fuseSteps, fuseOne_estrip, ih]

theorem ranked_map (g : α → β) (n : Nat) (l : List α) :
    ranked n (l.map g) = (ranked n l).map (fun p => (p.1, g p.2)) := by
  induction l generalizing n with
  | nil => rfl
  | cons a l ih => simp [ranked, ih]

theorem rrfScored_strip (rrf_k : Nat) (l : List ChunkResult) :
    rrfScored rrf_k (l.map stripScore) =
      (rrfScored rrf_k l).map (fun p => (p.1, stripScore p.2)) := by
  unfold rrfScored
  rw [ranked_map, List.map_map, List.map_map]
  rfl

theorem fusedEntries_strip (lexical semantic : List ChunkResult) (rrf_k : Nat) :
    fusedEntries (lexical.map stripScore) (semantic.map stripScore) rrf_k =
      (fusedEntries lexical semantic rrf_k).map estrip := by
  unfold fusedEntries
  have h1 : fuseSteps ([] : List FusedEntry)
      ((rrfScored rrf_k lexical).map (fun p => (p.1, stripScore p.2))) =
      (fuseSteps [] (rrfScored rrf_k lexical)).map estrip := by
    have h := fuseSteps_estrip [] (rrfScored rrf_k lexical)
    simpa using h
  rw [rrfScored_strip, rrfScored_strip, h1, fuseSteps_estrip]

theorem rrfFusedSorted_strip (lexical semantic : List ChunkResult) (rrf_k : Nat) :
    rrfFusedSorted (lexical.map stripScore) (semantic.map stripScore) rrf_k =
      (rrfFusedSorted lexical semantic rrf_k).map estrip := by
  unfold rrfFusedSorted
  rw [fusedEntries_strip]
  exact (List.map_insertionSort entryLE entryLE estrip _
    (fun a _ b _ => Iff.rfl)).symm

/-- Fusion of non-empty lists depends only on the score-stripped inputs: in
particular overwriting input scores (as a previous fusion call does through
the shared result objects) cannot change the result. -/
theorem rrf_strip (lexical semantic : List ChunkResult) (k rrf_k : Nat)
    (hlex : lexical ≠ []) (hsem : semantic ≠ []) :
    reciprocal_rank_fusion (lexical.map stripScore) (semantic.map stripScore) k rrf_k =
      reciprocal_rank_fusion lexical semantic k rrf_k := by
  rw [rrf_of_ne_nil _ _ _ _ (by simpa using hlex) (by simpa using hsem),
    rrf_of_ne_nil _ _ _ _ hlex hsem, rrfFusedSorted_strip, ← List.map_take,
    List.map_map]
  rfl

/-! ### Claim theorems -/

/-- Claim C4: for lexical input `[A, B]` (ranks 1 and 2), semantic input
`[B, C]` (ranks 1 and 2), distinct chunk identities, `rrf_k = 60` and any
`k ≥ 3`, fusion yields scores `A = 1/61`, `B = 1/62 + 1/61`, `C = 1/62` and
output order `[B, A, C]`. -/
theorem C4_rrf_worked_example (k : Nat) (hk : 3 ≤ k) :
    reciprocal_rank_fusion [resA, resB] [resBsem, resC] k 60 =
      [{ resB with score := 1/62 + 1/61 }, { resA with score := 1/61 },
       { resC with score := 1/62 }] := by
  have hbase : rrfFusedSorted [resA, resB] [resBsem, resC] 60 =
      [⟨1, resB, 1/62 + 1/61⟩, ⟨0, resA, 1/61⟩, ⟨2, resC, 1/62⟩] := by
    norm_num [rrfFusedSorted, fusedEntries, fuseSteps, fuseOne, rrfScored, ranked,
      entryLE, List.insertionSort, List.orderedInsert, resA, resB, resBsem, resC]
  rw [rrf_of_ne_nil _ _ _ _ (by simp) (by simp), hbase,
    List.take_of_length_le (by simpa using hk)]
  simp

/-- Witness for C4 at `k = 3`. -/
theorem C4_witness :
    reciprocal_rank_fusion [resA, resB] [resBsem, resC] 3 60 =
      [{ resB with score := 1/62 + 1/61 }, { resA with score := 1/61 },
       { resC with score := 1/62 }] :=
  C4_rrf_worked_example 3 (by norm_num)

/-- Claim C5 as stated is false: with an empty lexical list the code
early-exits (api.py lines 164-165) and returns the semantic hits with their
raw scores untouched, not with RRF contribution sums.  Here the single
semantic candidate would have fused score `1/61`, but its returned score is
its raw score `7`. -/
theorem C5_counterexample :
    reciprocal_rank_fusion [] [c5sem] 5 60 = [c5sem] ∧
    rrfContrib 60 ([] : List ChunkResult) c5sem.chunk_id +
      rrfContrib 60 [c5sem] c5sem.chunk_id = 1/61 ∧
    c5sem.score ≠ 1/61 := by
  refine ⟨?_, ?_, ?_⟩
  · simp [reciprocal_rank_fusion]
  · norm_num [rrfContrib, listContrib, rrfScored, ranked, c5sem]
  · norm_num [c5sem]

/-- Claim C5 (amended): for every pair of NON-EMPTY lexical and semantic
lists with pairwise-distinct chunk ids, every chunk id of either list
appears in the fused list before truncation to `k` (the sorted fused list
`rrfFusedSorted`), with score equal to the sum of its per-list RRF
contributions `1 / (rrf_k + rank)` (rank = 1 + 0-based index), the
contribution being 0 for a list the id is absent from. -/
theorem C5_fusion_completeness (lexical semantic : List ChunkResult) (k rrf_k : Nat) (c : Int)
    (hlex : lexical ≠ []) (hsem : semantic ≠ [])
    (hndl : (lexical.map (fun r => r.chunk_id)).Nodup)
    (hnds : (semantic.map (fun r => r.chunk_id)).Nodup)
    (hc : c ∈ lexical.map (fun r => r.chunk_id) ∨ c ∈ semantic.map (fun r => r.chunk_id)) :
    reciprocal_rank_fusion lexical semantic k rrf_k =
      ((rrfFusedSorted lexical semantic rrf_k).take k).map
        (fun e => { e.item with score := e.score }) ∧
    ∃ e ∈ rrfFusedSorted lexical semantic rrf_k,
      e.item.chunk_id = c ∧
      e.score =
        (if c ∈ lexical.map (fun r => r.chunk_id) then
          (1 : ℚ) / ((rrf_k : ℚ) + (((lexical.map (fun r => r.chunk_id)).indexOf c : ℚ) + 1))
        else 0) +
        (if c ∈ semantic.map (fun r => r.chunk_id) then
          (1 : ℚ) / ((rrf_k : ℚ) + (((semantic.map (fun r => r.chunk_id)).indexOf c : ℚ) + 1))
        else 0) := by
  refine ⟨rrf_of_ne_nil lexical semantic k rrf_k hlex hsem, ?_⟩
  have hnd := nodup_entryIds_fusedEntries lexical semantic rrf_k
  have hcmem : c ∈ entryIds (fusedEntries lexical semantic rrf_k) := by
    rw [entryIds_fusedEntries]
    unfold firstSeenIds
    rw [mem_newIds]
    right
    rw [List.map_append, List.mem_append]
    exact hc
  obtain ⟨e, he, hid⟩ := List.mem_map.mp hcmem
  refine ⟨e, (perm_rrfFusedSorted lexical semantic rrf_k).mem_iff.mpr he, hid, ?_⟩
  have hscore : entryScore e.item.chunk_id (fusedEntries lexical semantic rrf_k) = e.score :=
    entryScore_of_mem_nodup _ e hnd he
  rw [← hid, ← hscore, entryScore_fusedEntries, rrfContrib_eq _ _ _ hndl,
    rrfContrib_eq _ _ _ hnds]

/-- Witness for C5 at the worked example, chunk id 2 (present in both
lists). -/
theorem C5_witness :
    reciprocal_rank_fusion [resA, resB] [resBsem, resC] 3 60 =
      ((rrfFusedSorted [resA, resB] [resBsem, resC] 60).take 3).map
        (fun e => { e.item with score := e.score }) ∧
    ∃ e ∈ rrfFusedSorted [resA, resB] [resBsem, resC] 60,
      e.item.chunk_id = 2 ∧
      e.score =
        (if 2 ∈ [resA, resB].map (fun r => r.chunk_id) then
          (1 : ℚ) / ((60 : ℚ) + ((([resA, resB].map (fun r => r.chunk_id)).indexOf 2 : ℚ) + 1))
        else 0) +
        (if 2 ∈ [resBsem, resC].map (fun r => r.chunk_id) then
          (1 : ℚ) / ((60 : ℚ) + ((([resBsem, resC].map (fun r => r.chunk_id)).indexOf 2 : ℚ) + 1))
        else 0) :=
  C5_fusion_completeness [resA, resB] [resBsem, resC] 3 60 2 (by simp) (by simp)
    (by decide) (by decide) (by decide)

/-- Claim C10: on non-empty inputs the fused output has at most one entry
per chunk id, and an output entry whose chunk id occurs in the lexical list
(in particular one present in both lists) is the first lexical occurrence —
content, document id and provenance fields included — with only its score
replaced by the fused (contribution-sum) score. -/
theorem C10_rrf_dedup_lexical_item (lexical semantic : List ChunkResult) (k rrf_k : Nat)
    (hlex : lexical ≠ []) (hsem : semantic ≠ []) :
    ((reciprocal_rank_fusion lexical semantic k rrf_k).map (fun r => r.chunk_id)).Nodup ∧
    ∀ x ∈ reciprocal_rank_fusion lexical semantic k rrf_k,
      ∀ r, lexical.find? (fun t => t.chunk_id = x.chunk_id) = some r →
        x.chunk_id ∈ semantic.map (fun t => t.chunk_id) →
        x = { r with score := rrfContrib rrf_k lexical x.chunk_id +
                              rrfContrib rrf_k semantic x.chunk_id } := by
  rw [rrf_of_ne_nil lexical semantic k rrf_k hlex hsem]
  have hnd := nodup_entryIds_fusedEntries lexical semantic rrf_k
  have hnd' : ((fusedEntries lexical semantic rrf_k).map
      (fun e => e.item.chunk_id)).Nodup := hnd
  have hperm := perm_rrfFusedSorted lexical semantic rrf_k
  constructor
  · have h1 : ((rrfFusedSorted lexical semantic rrf_k).map
        (fun e => e.item.chunk_id)).Nodup :=
      ((hperm.map (fun e => e.item.chunk_id)).nodup_iff).mpr hnd'
    have h2 : (((rrfFusedSorted lexical semantic rrf_k).take k).map
        (fun e => e.item.chunk_id)).Nodup :=
      h1.sublist (List.Sublist.map _ (List.take_sublist k _))
    rw [List.map_map]
    exact h2
  · intro x hx r hfind hsemmem
    obtain ⟨e, he, hxe⟩ := List.mem_map.mp hx
    have he' : e ∈ fusedEntries lexical semantic rrf_k :=
      hperm.mem_iff.mp ((List.take_sublist k _).subset he)
    have hxid : x.chunk_id = e.item.chunk_id := by rw [← hxe]
    have hitem : entryItemOf e.item.chunk_id (fusedEntries lexical semantic rrf_k) =
        some e.item := by
      unfold entryItemOf
      rw [find?_entry_of_mem_nodup _ e hnd he']
      rfl
    rw [entryItemOf_fusedEntries, ← hxid, hfind] at hitem
    have hir : e.item = r := by
      simpa using hitem.symm
    have hscore : e.score = rrfContrib rrf_k lexical x.chunk_id +
        rrfContrib rrf_k semantic x.chunk_id := by
      rw [hxid, ← entryScore_of_mem_nodup _ e hnd he', entryScore_fusedEntries]
    rw [← hir, ← hscore, ← hxe]

/-- Witness for C10 at the worked example (chunk id 2 is in both lists). -/
theorem C10_witness :
    (((reciprocal_rank_fusion [resA, resB] [resBsem, resC] 3 60).map
        (fun r => r.chunk_id)).Nodup) ∧
    ∀ x ∈ reciprocal_rank_fusion [resA, resB] [resBsem, resC] 3 60,
      ∀ r, [resA, resB].find? (fun t => t.chunk_id = x.chunk_id) = some r →
        x.chunk_id ∈ [resBsem, resC].map (fun t => t.chunk_id) →
        x = { r with score := rrfContrib 60 [resA, resB] x.chunk_id +
                              rrfContrib 60 [resBsem, resC] x.chunk_id } :=
  C10_rrf_dedup_lexical_item [resA, resB] [resBsem, resC] 3 60 (by simp) (by simp)

/-- Claim C6: for fixed non-empty candidate lists and fixed `rrf_k` and `k`,
fusion is deterministic — the result depends only on the score-stripped
inputs, so a repeated call yields the identical ordered result even though
the first call overwrote the shared result objects' scores (in the empty-list
early exits no mutation happens at all, so repetition is trivially
identical) — and candidates with equal fused scores appear in first-seen
input order (all of the lexical list before the semantic list), as recorded
by `firstSeenIds`. -/
theorem C6_fusion_determinism (lexical semantic : List ChunkResult) (k rrf_k : Nat)
    (hlex : lexical ≠ []) (hsem : semantic ≠ []) :
    (∀ lexical' semantic', lexical'.map stripScore = lexical.map stripScore →
      semantic'.map stripScore = semantic.map stripScore →
      reciprocal_rank_fusion lexical' semantic' k rrf_k =
        reciprocal_rank_fusion lexical semantic k rrf_k) ∧
    List.Pairwise (fun x y : ChunkResult => x.score = y.score →
        (firstSeenIds lexical semantic).indexOf x.chunk_id <
          (firstSeenIds lexical semantic).indexOf y.chunk_id)
      (reciprocal_rank_fusion lexical semantic k rrf_k) := by
  constructor
  · intro lexical' semantic' h1 h2
    have hlex' : lexical' ≠ [] := by
      intro h
      rw [h] at h1
      exact hlex (List.map_eq_nil_iff.mp h1.symm)
    have hsem' : semantic' ≠ [] := by
      intro h
      rw [h] at h2
      exact hsem (List.map_eq_nil_iff.mp h2.symm)
    rw [← rrf_strip lexical' semantic' k rrf_k hlex' hsem', h1, h2,
      rrf_strip lexical semantic k rrf_k hlex hsem]
  · rw [rrf_of_ne_nil lexical semantic k rrf_k hlex hsem]
    rw [List.pairwise_map]
    have hstrict := (pairwise_strict_rrfFusedSorted lexical semantic rrf_k).sublist
      (List.take_sublist k _)
    refine hstrict.imp_of_mem ?_
    intro a b ha hb hab heq
    have ha' : a ∈ fusedEntries lexical semantic rrf_k :=
      (perm_rrfFusedSorted lexical semantic rrf_k).mem_iff.mp
        ((List.take_sublist k _).subset ha)
    have hb' : b ∈ fusedEntries lexical semantic rrf_k :=
      (perm_rrfFusedSorted lexical semantic rrf_k).mem_iff.mp
        ((List.take_sublist k _).subset hb)
    have hscore : a.score = b.score := heq
    have hpos : a.pos < b.pos := by
      rcases hab with hlt | ⟨_, hp⟩
      · exact absurd hlt (by rw [hscore]; exact lt_irrefl _)
      · exact hp
    have hidsa := indexOf_entryIds_eq_pos _ (posAligned_fusedEntries lexical semantic rrf_k)
      (nodup_entryIds_fusedEntries lexical semantic rrf_k) a ha'
    have hidsb := indexOf_entryIds_eq_pos _ (posAligned_fusedEntries lexical semantic rrf_k)
      (nodup_entryIds_fusedEntries lexical semantic rrf_k) b hb'
    rw [entryIds_fusedEntries] at hidsa hidsb
    show (firstSeenIds lexical semantic).indexOf a.item.chunk_id <
      (firstSeenIds lexical semantic).indexOf b.item.chunk_id
    rw [hidsa, hidsb]
    exact hpos

/-- Witness for C6 at the worked example. -/
theorem C6_witness :
    (∀ lexical' semantic', lexical'.map stripScore = [resA, resB].map stripScore →
      semantic'.map stripScore = [resBsem, resC].map stripScore →
      reciprocal_rank_fusion lexical' semantic' 3 60 =
        reciprocal_rank_fusion [resA, resB] [resBsem, resC] 3 60) ∧
    List.Pairwise (fun x y : ChunkResult => x.score = y.score →
        (firstSeenIds [resA, resB] [resBsem, resC]).indexOf x.chunk_id <
          (firstSeenIds [resA, resB] [resBsem, resC]).indexOf y.chunk_id)
      (reciprocal_rank_fusion [resA, resB] [resBsem, resC] 3 60) :=
  C6_fusion_determinism [resA, resB] [resBsem, resC] 3 60 (by simp) (by simp)

/-! ### Chunker invariants -/

theorem le_foldr_max (l : List Nat) (x : Nat) (hx : x ∈ l) : x ≤ l.foldr max 0 := by
  induction l with
  | nil => cases hx
  | cons a l ih =>
    rcases List.mem_cons.mp hx with rfl | hx'
    · exact Nat.le_max_left _ _
    · exact le_trans (ih hx') (Nat.le_max_right _ _)

theorem sumTokens_nil : sumTokens [] = 0 := rfl

theorem sumTokens_append (l₁ l₂ : List Text) :
    sumTokens (l₁ ++ l₂) = sumTokens l₁ + sumTokens l₂ := by
  unfold sumTokens
  rw [List.map_append, List.sum_append]

theorem sumTokens_reverse (l : List Text) : sumTokens l.reverse = sumTokens l := by
  unfold sumTokens
  rw [List.map_reverse, List.sum_reverse]

theorem tokens_le_of_mem_takeWhileBudget (budget used : Nat) (l : List Text) :
    ∀ s ∈ takeWhileBudget budget used l, countTokens s ≤ budget := by
  induction l generalizing used with
  | nil => intro s hs; cases hs
  | cons a l ih =>
    intro s hs
    unfold takeWhileBudget at hs
    by_cases hb : used + countTokens a > budget
    · rw [if_pos hb] at hs; cases hs
    · rw [if_neg hb] at hs
      rcases List.mem_cons.mp hs with rfl | hs'
      · omega
      · exact ih _ s hs'

theorem sum_takeWhileBudget (budget used : Nat) (l : List Text) (h : used ≤ budget) :
    used + sumTokens (takeWhileBudget budget used l) ≤ budget := by
  induction l generalizing used with
  | nil => simpa [takeWhileBudget, sumTokens]
  | cons a l ih =>
    unfold takeWhileBudget
    by_cases hb : used + countTokens a > budget
    · rw [if_pos hb]; simpa [sumTokens]
    · rw [if_neg hb]
      have := ih (used + countTokens a) (by omega)
      unfold sumTokens at *
      simp only [List.map_cons, List.sum_cons]
      omega

theorem overlapParts_sum_le (chunk_overlap : Nat) (chunk : Text) :
    sumTokens (overlapParts chunk_overlap chunk) ≤ chunk_overlap := by
  unfold overlapParts
  rw [sumTokens_reverse]
  have := sum_takeWhileBudget chunk_overlap 0 (split_sentences chunk).reverse
    (Nat.zero_le _)
  omega

theorem overlapParts_tokens_le (chunk_overlap : Nat) (chunk : Text) :
    ∀ s ∈ overlapParts chunk_overlap chunk, countTokens s ≤ chunk_overlap := by
  intro s hs
  unfold overlapParts at hs
  rw [List.mem_reverse] at hs
  exact tokens_le_of_mem_takeWhileBudget _ _ _ s hs

theorem stInv_add_chunk (chunk_size chunk_overlap M : Nat) (st : ChunkerState)
    (hovM : chunk_overlap ≤ M) (h : StInv chunk_size chunk_overlap M st) :
    StInv chunk_size chunk_overlap M (add_chunk chunk_overlap st) ∧
      (add_chunk chunk_overlap st).current_tokens ≤ chunk_overlap := by
  obtain ⟨hM, hct, hbound, hchunks⟩ := h
  unfold add_chunk
  by_cases hcur : st.current = []
  · rw [if_pos hcur]
    refine ⟨⟨hM, hct, hbound, hchunks⟩, ?_⟩
    rw [hct, hcur, sumTokens_nil]
    exact Nat.zero_le _
  · rw [if_neg hcur]
    have hnewchunk : st.current_tokens ≤ chunk_size ∨
        st.current_tokens ≤ chunk_overlap + M := by
      rcases hbound with h1 | ⟨s₀, rest, hconc, hle⟩
      · exact Or.inl h1
      · have hs₀ : countTokens s₀ ≤ M := hM s₀ (by rw [hconc]; simp)
        omega
    have hchunks' : ∀ p ∈ st.chunks ++
        [(stripChars (List.intercalate [' '] st.current), st.current_tokens)],
        p.2 ≤ chunk_size ∨ p.2 ≤ chunk_overlap + M := by
      intro p hp
      rcases List.mem_append.mp hp with hp | hp
      · exact hchunks p hp
      · have hpe : p = (stripChars (List.intercalate [' '] st.current),
            st.current_tokens) := by simpa using hp
        rw [hpe]
        exact hnewchunk
    by_cases hov : chunk_overlap > 0
    · rw [if_pos hov]
      refine ⟨⟨?_, rfl, ?_, hchunks'⟩, overlapParts_sum_le _ _⟩
      · intro s hs
        exact le_trans (overlapParts_tokens_le _ _ s hs) hovM
      · dsimp only
        rcases List.eq_nil_or_concat
            (overlapParts chunk_overlap (stripChars (List.intercalate [' '] st.current)))
          with hnil | ⟨rest, s₀, hconc⟩
        · left
          rw [hnil, sumTokens_nil]
          exact Nat.zero_le _
        · right
          rw [List.concat_eq_append] at hconc
          refine ⟨s₀, rest, hconc, ?_⟩
          have := overlapParts_sum_le chunk_overlap
            (stripChars (List.intercalate [' '] st.current))
          omega
    · rw [if_neg hov]
      refine ⟨⟨?_, rfl, ?_, hchunks'⟩, Nat.zero_le _⟩
      · intro s hs; cases hs
      · left; exact Nat.zero_le _

theorem stInv_processSentence (chunk_size chunk_overlap M : Nat) (st : ChunkerState)
    (s : Text) (hs : countTokens s ≤ M) (hovM : chunk_overlap ≤ M)
    (h : StInv chunk_size chunk_overlap M st) :
    StInv chunk_size chunk_overlap M (processSentence chunk_size chunk_overlap st s) := by
  simp only [processSentence]
  by_cases hcond : st.current_tokens + countTokens s > chunk_size ∧ st.current ≠ []
  · rw [if_pos hcond]
    obtain ⟨⟨hM', hct', hbound', hchunks'⟩, hover⟩ :=
      stInv_add_chunk chunk_size chunk_overlap M st hovM h
    refine ⟨?_, ?_, ?_, hchunks'⟩
    · intro t ht
      rcases List.mem_append.mp ht with ht | ht
      · exact hM' t ht
      · have : t = s := by simpa using ht
        rw [this]; exact hs
    · rw [sumTokens_append, hct']
      simp [sumTokens]
    · right
      refine ⟨s, (add_chunk chunk_overlap st).current, rfl, ?_⟩
      dsimp only
      omega
  · rw [if_neg hcond]
    obtain ⟨hM, hct, hbound, hchunks⟩ := h
    refine ⟨?_, ?_, ?_, hchunks⟩
    · intro t ht
      rcases List.mem_append.mp ht with ht | ht
      · exact hM t ht
      · have : t = s := by simpa using ht
        rw [this]; exact hs
    · rw [sumTokens_append, hct]
      simp [sumTokens]
    · by_cases hsz : st.current_tokens + countTokens s ≤ chunk_size
      · exact Or.inl hsz
      · have hemp : st.current = [] := by
          by_contra hne
          exact hcond ⟨by omega, hne⟩
        right
        refine ⟨s, st.current, rfl, ?_⟩
        dsimp only
        rw [hct, hemp, sumTokens_nil]
        omega

theorem stInv_foldSentences (chunk_size chunk_overlap M : Nat) (sentences : List Text)
    (hovM : chunk_overlap ≤ M) :
    (∀ s ∈ sentences, countTokens s ≤ M) → ∀ st, StInv chunk_size chunk_overlap M st →
      StInv chunk_size chunk_overlap M
        (sentences.foldl (processSentence chunk_size chunk_overlap) st) := by
  induction sentences with
  | nil => intro _ st h; simpa using h
  | cons s rest ih =>
    intro hsent st h
    rw [List.foldl_cons]
    exact ih (fun t ht => hsent t (List.mem_cons_of_mem _ ht)) _
      (stInv_processSentence chunk_size chunk_overlap M st s
        (hsent s (List.mem_cons_self _ _)) hovM h)

theorem stInv_processParagraph (chunk_size chunk_overlap M : Nat) (st : ChunkerState)
    (para : Text) (hpar : ∀ s ∈ split_sentences para, countTokens s ≤ M)
    (hovM : chunk_overlap ≤ M) (h : StInv chunk_size chunk_overlap M st) :
    StInv chunk_size chunk_overlap M (processParagraph chunk_size chunk_overlap st para) := by
  unfold processParagraph
  have hfold := stInv_foldSentences chunk_size chunk_overlap M (split_sentences para)
    hovM hpar st h
  by_cases hcommit : ((split_sentences para).foldl
      (processSentence chunk_size chunk_overlap) st).current_tokens ≥ chunk_size
  · rw [if_pos hcommit]
    exact (stInv_add_chunk chunk_size chunk_overlap M _ hovM hfold).1
  · rw [if_neg hcommit]
    exact hfold

theorem stInv_foldParagraphs (chunk_size chunk_overlap M : Nat) (paragraphs : List Text)
    (hovM : chunk_overlap ≤ M) :
    (∀ p ∈ paragraphs, ∀ s ∈ split_sentences p, countTokens s ≤ M) →
      ∀ st, StInv chunk_size chunk_overlap M st →
        StInv chunk_size chunk_overlap M
          (paragraphs.foldl (processParagraph chunk_size chunk_overlap) st) := by
  induction paragraphs with
  | nil => intro _ st h; simpa using h
  | cons p rest ih =>
    intro hpar st h
    rw [List.foldl_cons]
    exact ih (fun q hq => hpar q (List.mem_cons_of_mem _ hq)) _
      (stInv_processParagraph chunk_size chunk_overlap M st p
        (hpar p (List.mem_cons_self _ _)) hovM h)

/-- Every sentence of the cleaned input text has at most `maxSentTokens text`
tokens. -/
theorem countTokens_le_maxSentTokens (text : Text) :
    ∀ p ∈ split_paragraphs (clean_text text), ∀ s ∈ split_sentences p,
      countTokens s ≤ maxSentTokens text := by
  intro p hp s hs
  unfold maxSentTokens
  refine le_trans ?_ (le_foldr_max _ _
    (List.mem_map_of_mem (fun p => ((split_sentences p).map countTokens).foldr max 0) hp))
  exact le_foldr_max _ _ (List.mem_map_of_mem countTokens hs)

/-- Claim C7 as stated is false: with target size 5 and overlap budget 3 on a
text whose sentences have 2, 2 and 4 tokens (none oversized), the chunker
emits a second chunk of 6 > 5 tokens consisting of TWO sentences — the
retained overlap sentence plus the next sentence — not of a single oversized
sentence. -/
theorem C7_counterexample :
    chunk_text c7text 5 3 =
      [(("a b. c d.").toList, 4), (("c d. e f g h.").toList, 6)] ∧
    ¬((6 : Nat) ≤ 5) ∧
    (split_sentences (("c d. e f g h.").toList)).length = 2 ∧
    (∀ s ∈ split_sentences (clean_text c7text), countTokens s ≤ 5) := by decide

/-- Claim C7 (amended): every chunk emitted by `chunk_text` has a token
count within the target size, or else within the overlap budget plus the
largest sentence token count of the input (taking also the budget itself as
a lower bound for that maximum, for the degenerate case where a pure-overlap
buffer is committed).  With `chunk_overlap = 0` this reduces to the original
claim: a chunk exceeds the target only when it is a single sentence whose
own token count exceeds the target. -/
theorem C7_chunk_token_bound (text : Text) (chunk_size chunk_overlap : Nat) :
    ∀ p ∈ chunk_text text chunk_size chunk_overlap,
      p.2 ≤ chunk_size ∨
        p.2 ≤ chunk_overlap + max (maxSentTokens text) chunk_overlap := by
  intro p hp
  have hovM : chunk_overlap ≤ max (maxSentTokens text) chunk_overlap :=
    le_max_right _ _
  have hsent : ∀ q ∈ split_paragraphs (clean_text text), ∀ s ∈ split_sentences q,
      countTokens s ≤ max (maxSentTokens text) chunk_overlap :=
    fun q hq s hs =>
      le_trans (countTokens_le_maxSentTokens text q hq s hs) (le_max_left _ _)
  have hinit : StInv chunk_size chunk_overlap (max (maxSentTokens text) chunk_overlap)
      ⟨[], [], 0⟩ := by
    refine ⟨?_, rfl, Or.inl (Nat.zero_le _), ?_⟩
    · intro s hs; cases hs
    · intro q hq; cases hq
  have hfold := stInv_foldParagraphs chunk_size chunk_overlap
    (max (maxSentTokens text) chunk_overlap) (split_paragraphs (clean_text text))
    hovM hsent ⟨[], [], 0⟩ hinit
  simp only [chunk_text] at hp
  by_cases hfin : ((split_paragraphs (clean_text text)).foldl
      (processParagraph chunk_size chunk_overlap) ⟨[], [], 0⟩).current ≠ []
  · rw [if_pos hfin] at hp
    exact (stInv_add_chunk chunk_size chunk_overlap _ _ hovM hfold).1.2.2.2 p hp
  · rw [if_neg hfin] at hp
    exact hfold.2.2.2 p hp

/-- Witness for C7 at the counterexample chunk: the 6-token chunk satisfies
the amended bound `6 ≤ 3 + max (maxSentTokens c7text) 3 = 3 + 4`. -/
theorem C7_witness :
    ((("c d. e f g h.").toList, 6) ∈ chunk_text c7text 5 3) ∧
    ((("c d. e f g h.").toList, (6 : Nat)).2 ≤ 5 ∨
      (("c d. e f g h.").toList, (6 : Nat)).2 ≤ 3 + max (maxSentTokens c7text) 3) :=
  ⟨by decide, C7_chunk_token_bound c7text 5 3 _ (by decide)⟩

/-! ### Reranker ordering -/

instance : IsTotal (Nat × ℚ) scoreOrder where
  total a b := by
    unfold scoreOrder
    rcases lt_trichotomy a.2 b.2 with h | h | h
    · exact Or.inr (Or.inl h)
    · rcases Nat.le_total a.1 b.1 with hp | hp
      · exact Or.inl (Or.inr ⟨h, hp⟩)
      · exact Or.inr (Or.inr ⟨h.symm, hp⟩)
    · exact Or.inl (Or.inl h)

instance : IsTrans (Nat × ℚ) scoreOrder where
  trans a b c hab hbc := by
    unfold scoreOrder at *
    rcases hab with h1 | ⟨h1, p1⟩
    · rcases hbc with h2 | ⟨h2, p2⟩
      · exact Or.inl (h2.trans h1)
      · exact Or.inl (h2 ▸ h1)
    · rcases hbc with h2 | ⟨h2, p2⟩
      · exact Or.inl (h1 ▸ h2)
      · exact Or.inr ⟨h1.trans h2, p1.trans p2⟩

theorem ranked_length (n : Nat) (l : List α) : (ranked n l).length = l.length := by
  induction l generalizing n with
  | nil => rfl
  | cons a l ih => simp [ranked, ih]

theorem ranked_map_fst (n : Nat) (l : List α) :
    (ranked n l).map (fun p => p.1) = List.range' n l.length := by
  induction l generalizing n with
  | nil => rfl
  | cons a l ih =>
    simp only [ranked, List.map_cons, List.length_cons, List.range'_succ]
    rw [ih]

theorem nodup_fst_ranked (n : Nat) (l : List α) :
    ((ranked n l).map (fun p => p.1)).Nodup := by
  rw [ranked_map_fst]
  exact List.nodup_range' ..

/-- The sorted indexed score list is strictly ordered: score strictly
descending, ties by original enumeration index strictly ascending. -/
theorem pairwise_strict_rerankOrder (scores : List ℚ) :
    List.Pairwise (fun a b : Nat × ℚ => b.2 < a.2 ∨ (a.2 = b.2 ∧ a.1 < b.1))
      (rerankOrder scores) := by
  have hperm : (rerankOrder scores).Perm (ranked 0 scores) :=
    List.perm_insertionSort scoreOrder _
  have hnodup : (rerankOrder scores).Nodup :=
    (hperm.nodup_iff).mpr (nodup_fst_ranked 0 scores).of_map
  have hsorted : List.Sorted scoreOrder (rerankOrder scores) :=
    List.sorted_insertionSort scoreOrder _
  refine (List.Pairwise.and hsorted hnodup).imp_of_mem ?_
  intro a b ha hb hab
  obtain ⟨hle, hne⟩ := hab
  rcases hle with hlt | ⟨heq, hp⟩
  · exact Or.inl hlt
  · refine Or.inr ⟨heq, lt_of_le_of_ne hp ?_⟩
    intro hpe
    exact hne (List.inj_on_of_nodup_map (nodup_fst_ranked 0 scores)
      (hperm.mem_iff.mp ha) (hperm.mem_iff.mp hb) hpe)

/-- Transfer of a pairwise relation from a list to its ranked version. -/
theorem pairwise_ranked_of_pairwise (R : α → α → Prop) (n : Nat) (l : List α)
    (h : List.Pairwise R l) :
    List.Pairwise (fun p q : Nat × α => R p.2 q.2) (ranked n l) := by
  have h' : List.Pairwise R ((ranked n l).map (fun p => p.2)) := by
    rw [ranked_map_snd]
    exact h
  exact List.pairwise_map.mp h'

/-- Claim C8: for a rerank request within the document ceiling whose scoring
call succeeds (scores align one-to-one with the documents), the endpoint
returns: results sorted by `reranker_score` descending with original input
order as the tie-break (strict pairwise order on the sorted indexed list),
dense 1-based ranks, `returned_count = min (top_k or #docs) #docs`, and
`reranked_count = #docs`. -/
theorem C8_rerank_contract (max_docs : Nat) (request : RerankRequest) (scores : List ℚ)
    (hlen : scores.length = request.documents.length)
    (hmax : request.documents.length ≤ max_docs) :
    ∃ resp, rerank max_docs request scores = Except.ok resp ∧
      resp.reranked_count = request.documents.length ∧
      resp.returned_count =
        min (request.top_k.getD request.documents.length) request.documents.length ∧
      resp.results.map (fun d => d.rank) = List.range' 1 resp.results.length ∧
      resp.results.map (fun d => d.reranker_score) =
        ((rerankOrder scores).take
          (min (request.top_k.getD request.documents.length)
            request.documents.length)).map (fun p => p.2) ∧
      List.Pairwise (fun a b : Nat × ℚ => b.2 < a.2 ∨ (a.2 = b.2 ∧ a.1 < b.1))
        (rerankOrder scores) ∧
      List.Pairwise (fun a b => b.reranker_score ≤ a.reranker_score) resp.results := by
  have hnotover : ¬(request.documents.length > max_docs) := by omega
  have hindexedlen : (rerankOrder scores).length = request.documents.length := by
    unfold rerankOrder
    rw [List.length_insertionSort, ranked_length, hlen]
  have htople : min (request.top_k.getD request.documents.length)
      request.documents.length ≤ (rerankOrder scores).length := by
    rw [hindexedlen]
    exact Nat.min_le_right _ _
  have htakelen : ((rerankOrder scores).take
      (min (request.top_k.getD request.documents.length)
        request.documents.length)).length =
      min (request.top_k.getD request.documents.length) request.documents.length := by
    rw [List.length_take]
    omega
  simp only [rerank, if_neg hnotover]
  refine ⟨_, rfl, rfl, ?_, ?_, ?_, pairwise_strict_rerankOrder scores, ?_⟩
  · -- returned_count
    dsimp only
    rw [List.length_map, ranked_length, htakelen]
  · -- dense 1-based ranks
    dsimp only
    rw [List.map_map, List.length_map, ranked_length, htakelen]
    have := ranked_map_fst 1 ((rerankOrder scores).take
      (min (request.top_k.getD request.documents.length) request.documents.length))
    rw [htakelen] at this
    exact this
  · -- scores of results are the sorted top scores
    dsimp only
    rw [List.map_map]
    have : (ranked 1 ((rerankOrder scores).take
        (min (request.top_k.getD request.documents.length)
          request.documents.length))).map (fun p => p.2) =
        (rerankOrder scores).take
          (min (request.top_k.getD request.documents.length)
            request.documents.length) :=
      ranked_map_snd _ _
    calc _ = ((ranked 1 ((rerankOrder scores).take _)).map (fun p => p.2)).map
          (fun p => p.2) := by rw [List.map_map]; rfl
      _ = _ := by rw [this]
  · -- descending scores on the results
    dsimp only
    rw [List.pairwise_map]
    have hstrict := (pairwise_strict_rerankOrder scores).sublist
      (List.take_sublist (min (request.top_k.getD request.documents.length)
        request.documents.length) (rerankOrder scores))
    have hweak : List.Pairwise (fun a b : Nat × ℚ => b.2 ≤ a.2)
        ((rerankOrder scores).take
          (min (request.top_k.getD request.documents.length)
            request.documents.length)) := by
      refine hstrict.imp ?_
      intro a b hab
      rcases hab with h | ⟨h, _⟩
      · exact le_of_lt h
      · exact le_of_eq h.symm
    exact pairwise_ranked_of_pairwise _ 1 _ hweak

/-- Witness for C8 at three documents with a tied score pair and no
`top_k`. -/
theorem C8_witness :
    ∃ resp, rerank 100 ⟨"q", rerankDocs, none⟩ rerankScores = Except.ok resp ∧
      resp.reranked_count = rerankDocs.length ∧
      resp.returned_count = min ((none : Option Nat).getD rerankDocs.length)
        rerankDocs.length ∧
      resp.results.map (fun d => d.rank) = List.range' 1 resp.results.length ∧
      resp.results.map (fun d => d.reranker_score) =
        ((rerankOrder rerankScores).take
          (min ((none : Option Nat).getD rerankDocs.length) rerankDocs.length)).map
          (fun p => p.2) ∧
      List.Pairwise (fun a b : Nat × ℚ => b.2 < a.2 ∨ (a.2 = b.2 ∧ a.1 < b.1))
        (rerankOrder rerankScores) ∧
      List.Pairwise (fun a b => b.reranker_score ≤ a.reranker_score) resp.results :=
  C8_rerank_contract 100 ⟨"q", rerankDocs, none⟩ rerankScores (by decide) (by decide)

/-! ### Ingestion and settings claims -/

/-- Claim C1 is contradicted by the code: `Settings` (config.py lines 8-27)
declares no `rrf_k` field, yet the hybrid branch of `/query` reads
`settings.rrf_k` (api.py line 232).  Hence every POST /query with a
non-empty query and mode "hybrid" raises `AttributeError` instead of
returning fused results, and "rrf_k" is not among the recognized settings
attribute names. -/
theorem C1_hybrid_raises (payload : QueryRequest)
    (lexicalHits semanticHits : List ChunkResult)
    (hq : stripChars payload.query.toList ≠ [])
    (hm : payload.mode = QueryMode.hybrid) :
    queryEndpoint payload lexicalHits semanticHits =
      Except.error (ApiError.attributeError rrfAttrName) ∧
    rrfAttrName ∉ settingsFieldNames := by
  constructor
  · unfold queryEndpoint
    rw [if_neg hq, hm]
    rfl
  · decide

/-- Witness for C1: the failing hybrid request with query "hello". -/
theorem C1_witness :
    queryEndpoint payload1 [] [] = Except.error (ApiError.attributeError rrfAttrName) ∧
    rrfAttrName ∉ settingsFieldNames :=
  C1_hybrid_raises payload1 [] [] (by decide) (by decide)

/-- Claim C2 is contradicted by the code: the `chunks` table has no unique
constraint (db.py lines 50-59), so the `ON CONFLICT DO NOTHING` of
`insert_chunks` never fires and running ingestion twice on the same
unchanged record APPENDS a second copy of every chunk row: after the first
run the document owns one chunk, after the second it owns two identical
ones.  (The document row itself is not duplicated, as its upsert conflicts
on the unique `source_id`.) -/
theorem C2_code_bug_duplicate_chunks :
    ((chunksFor 1 (processRecord 450 80 noEmbed db0 rec2)).map
      (fun c => (c.content, c.token_count)) = [(("hello world.").toList, 2)]) ∧
    ((chunksFor 1 (processRecord 450 80 noEmbed
        (processRecord 450 80 noEmbed db0 rec2) rec2)).map
      (fun c => (c.content, c.token_count)) =
      [(("hello world.").toList, 2), (("hello world.").toList, 2)]) ∧
    (processRecord 450 80 noEmbed
      (processRecord 450 80 noEmbed db0 rec2) rec2).docs.length = 1 := by decide

/-- Claim C3 is contradicted by the code: `ingest` never deletes existing
chunk rows (there is no DELETE anywhere in ingest.py), so re-ingesting a
document whose stored chunks came from an earlier run leaves the old rows in
place and appends the newly computed chunk set — a merge, not the claimed
full replacement (which would leave exactly the one new chunk). -/
theorem C3_code_bug_no_delete :
    chunk_text (("fresh text.").toList) 450 80 = [(("fresh text.").toList, 2)] ∧
    (chunksFor 1 (processRecord 450 80 noEmbed db3 rec3)).map (fun c => c.content) =
      [("old zero.").toList, ("old one.").toList, ("fresh text.").toList] := by decide

/-- Claim C9 as stated is false: on a `source_id` conflict the SQL of
`upsert_document` (ingest.py line 26) updates ONLY the checksum column —
`DO UPDATE SET checksum = EXCLUDED.checksum` — so the stored title and url
remain the old values, not the new record's. -/
theorem C9_counterexample :
    (upsert_document db9 c9sid c9title c9url c9sum).2.docs =
      [⟨1, "s1", "old title", "old url", "new sum"⟩] ∧
    "old title" ≠ c9title ∧ "old url" ≠ c9url := by decide

/-- With pairwise-distinct source ids, `find?` keyed by a member's source id
returns that member. -/
theorem find?_docRow_of_mem_nodup (docs : List DocRow) (row : DocRow)
    (hnd : (docs.map (fun d => d.source_id)).Nodup) (hmem : row ∈ docs) :
    docs.find? (fun d => d.source_id = row.source_id) = some row := by
  induction docs with
  | nil => cases hmem
  | cons a docs ih =>
    simp only [List.map_cons, List.nodup_cons] at hnd
    rcases List.mem_cons.mp hmem with rfl | hmem'
    · exact List.find?_cons_of_pos _ (by simp)
    · have hne : ¬(a.source_id = row.source_id) := by
        intro hx
        exact hnd.1 (hx ▸ List.mem_map_of_mem (fun d => d.source_id) hmem')
      rw [List.find?_cons_of_neg _ (by simpa using hne)]
      exact ih hnd.2 hmem'

/-- Claim C9 (amended): re-ingesting a record whose source identifier is
already stored keeps the same document row identity — the upsert returns the
existing row id and adds no row — and updates ONLY that row's checksum to
the new value; the stored title and url keep their previous values. -/
theorem C9_upsert_conflict (db : Db) (row : DocRow) (title url checksum : String)
    (hmem : row ∈ db.docs)
    (hnd : (db.docs.map (fun d => d.source_id)).Nodup) :
    (upsert_document db row.source_id title url checksum).1 = row.id ∧
    (upsert_document db row.source_id title url checksum).2.docs =
      db.docs.map (fun r => if r.source_id = row.source_id then
        { r with checksum := checksum } else r) ∧
    { row with checksum := checksum } ∈
      (upsert_document db row.source_id title url checksum).2.docs ∧
    (upsert_document db row.source_id title url checksum).2.docs.length =
      db.docs.length := by
  have hfind := find?_docRow_of_mem_nodup db.docs row hnd hmem
  unfold upsert_document
  rw [hfind]
  refine ⟨rfl, rfl, ?_, by simp⟩
  have hx := List.mem_map_of_mem (fun r : DocRow =>
    if r.source_id = row.source_id then { r with checksum := checksum } else r) hmem
  simpa using hx

/-- Witness for C9 at the stored example row. -/
theorem C9_witness :
    (upsert_document db9 row9.source_id c9title c9url c9sum).1 = row9.id ∧
    (upsert_document db9 row9.source_id c9title c9url c9sum).2.docs =
      db9.docs.map (fun r => if r.source_id = row9.source_id then
        { r with checksum := c9sum } else r) ∧
    { row9 with checksum := c9sum } ∈
      (upsert_document db9 row9.source_id c9title c9url c9sum).2.docs ∧
    (upsert_document db9 row9.source_id c9title c9url c9sum).2.docs.length =
      db9.docs.length :=
  C9_upsert_conflict db9 row9 c9title c9url c9sum (by decide) (by decide)

end HybridSearch
